import Mathlib

/-!
# Go-CQRS-Events: the pusher-service hub and the NATS created-feed subscription

A shallow embedding of `pusher-service/hub.go`, `pusher-service/client.go`,
the subscription callback of `pusher-service/main.go`, and the created-feed
publication and subscription of `events/nats.go`.

Go values are modelled as follows.

* A `*Client` is a pointer `Ptr` into a heap `State.mem`; `nil` is `none`
  where a pointer may be nil (`ignore` of `Hub.Broadcast`).
* `Client.outbound` is created by `make(chan []byte)`: an unbuffered
  channel.  A send on it completes exactly when the peer's `Write` loop
  takes the value, so the model keeps, per client, the list of payloads
  that went through the channel (oldest first), and, per pointer, whether
  the `Write` loop has stopped taking values (`State.stalled`).  A send to
  a stalled peer parks the sending goroutine: `Result.blocked`.
* A runtime panic is `Result.panic`.
* `json.Marshal` and `gob` decoding are library code: they are parameters.
* The two request channels of `Hub.Run` are not modelled: `run` executes
  operations one after another.  `Hub.Broadcast` takes no mutex and can run
  inside `onConnect`; for that interleaving `onConnect` is split at its
  welcome push (`onConnectAppend`, `onConnectWelcome`), and `BroadcastLogged`
  is `Broadcast` with the log of its list and channel operations (`Access`).
* The loops of `Client.Read` and `Client.Write` run on the list of results
  the socket, the channel and the ticker will give them.
-/

namespace Pusher

/-- A `[]byte` payload, as the text it holds. -/
abbrev Payload := String

/-- A `*Client`. -/
abbrev Ptr := Nat

/-- The part of `*websocket.Conn` the hub uses: `RemoteAddr().String()` and
`Close()`. -/
structure Conn where
  remoteAddr : String
  closed : Bool
deriving DecidableEq

/-- The struct `Client` of client.go (the back reference `hub` is left out).
`outbound` lists the payloads that have been sent on the channel. -/
structure Client where
  id : String
  socket : Conn
  outbound : List Payload
deriving DecidableEq

/-- The constructor `NewClient(hub, socket, id)`. -/
def NewClient (socket : Conn) (id : String) : Client :=
  { id := id, socket := socket, outbound := [] }

/-- The struct `Hub`: the `clients` slice. -/
structure Hub where
  clients : List Ptr
deriving DecidableEq

/-- The constructor `NewHub()`. -/
def NewHub : Hub := { clients := [] }

/-- The hub, the heap of clients, and which peers no longer take from their
`outbound` channel. -/
structure State where
  hub : Hub
  mem : Ptr → Client
  stalled : Ptr → Bool

/-- Outcome of a call. -/
inductive Result (σ : Type) where
  /-- the call returned -/
  | ok (s : σ)
  /-- the goroutine is parked on a channel send; `s` is the state reached -/
  | blocked (s : σ)
  /-- runtime panic -/
  | panic

/-- The state of a world whose hub is fresh from `NewHub`. -/
def initState (mem : Ptr → Client) (stalled : Ptr → Bool) : State :=
  { hub := NewHub, mem := mem, stalled := stalled }

/-- Heap update at one pointer. -/
def State.update (s : State) (c : Ptr) (f : Client → Client) : State :=
  { s with mem := fun p => if p = c then f (s.mem p) else s.mem p }

/-- The send statement `client.outbound <- data`. -/
def send (s : State) (c : Ptr) (data : Payload) : Result State :=
  if s.stalled c then .blocked s
  else .ok (s.update c (fun cl => { cl with outbound := cl.outbound ++ [data] }))

/-- The map literal `welcomeMessage` of `onConnect`. -/
def welcomeMessage : List (String × String) :=
  [("type", "welcome"),
   ("message", "Connected to WebSocket server"),
   ("timestamp", "2025-12-19T15:42:30Z")]

/-- The method `Hub.onConnect`.  `marshalMap` is `json.Marshal` on a
`map[string]string`. -/
def onConnect (marshalMap : List (String × String) → Payload) (s : State) (client : Ptr) :
    Result State :=
  -- client.id = client.socket.RemoteAddr().String()
  let s1 := s.update client (fun cl => { cl with id := cl.socket.remoteAddr })
  -- h.clients = append(h.clients, client)
  let s2 : State := { s1 with hub := { clients := s1.hub.clients ++ [client] } }
  let data := marshalMap welcomeMessage
  send s2 client data

/-- The `for j, c := range h.clients` loop of `onDisconnect`: `j` is the
index of the next element, `i` the value of the variable `i`. -/
def rangeLoop (mem : Ptr → Client) (id : String) : List Ptr → Nat → Int → Int
  | [], _, i => i
  | c :: cs, j, i => rangeLoop mem id cs (j + 1) (if (mem c).id = id then (j : Int) else i)

/-- The slice expression `s[i:]`; `none` is the panic
"slice bounds out of range". -/
def sliceFrom {α : Type} (s : List α) (i : Int) : Option (List α) :=
  if 0 ≤ i ∧ i ≤ (s.length : Int) then some (s.drop i.toNat) else none

/-- The built-in `copy(dst, src)`: the new content of `dst`, which gets the
first `min(len(dst), len(src))` elements of `src`. -/
def goCopy {α : Type} (dst src : List α) : List α :=
  src.take dst.length ++ dst.drop src.length

/-- The call `client.socket.Close()`. -/
def closeSocket (s : State) (client : Ptr) : State :=
  s.update client (fun cl => { cl with socket := { cl.socket with closed := true } })

/-- The last three statements of `onDisconnect` on the slice `cs` with the
index `i` the loop found; `none` is a runtime panic.  `h.clients[i:]` shares
its array with `h.clients`, so after the copy the slice holds its first `i`
elements followed by the new content of `h.clients[i:]`; the slot set to nil
is the one the last statement cuts off. -/
def removeAt {α : Type} (cs : List α) (i : Int) : Option (List α) :=
  -- copy(h.clients[i:], h.clients[i+1:])
  match sliceFrom cs i, sliceFrom cs (i + 1) with
  | some dst, some src =>
    let cs1 := cs.take i.toNat ++ goCopy dst src
    -- h.clients[len(h.clients)-1] = nil
    if cs1.length = 0 then none
    else
      -- h.clients = h.clients[:len(h.clients)-1]
      some (cs1.take (cs1.length - 1))
  | _, _ => none

/-- The method `Hub.onDisconnect`. -/
def onDisconnect (s : State) (client : Ptr) : Result State :=
  let s1 := closeSocket s client
  -- i := -1; for j, c := range h.clients { if c.id == client.id { i = j } }
  let i := rangeLoop s1.mem (s1.mem client).id s1.hub.clients 0 (-1)
  match removeAt s1.hub.clients i with
  | some cs => .ok { s1 with hub := { clients := cs } }
  | none => .panic

/-- The loop of `Hub.Broadcast` over the clients still to visit. -/
def broadcastLoop (data : Payload) (ignore : Option Ptr) : List Ptr → State → Result State
  | [], s => .ok s
  | client :: rest, s =>
    if some client ≠ ignore then
      match send s client data with
      | .ok s1 => broadcastLoop data ignore rest s1
      | r => r
    else broadcastLoop data ignore rest s

/-- The method `Hub.Broadcast(message, ignore)`.  `marshal` is `json.Marshal` on the
message's type. -/
def Broadcast {M : Type} (marshal : M → Payload) (s : State) (message : M)
    (ignore : Option Ptr) : Result State :=
  let data := marshal message
  broadcastLoop data ignore s.hub.clients s

/-- One operation on the hub: the two cases of `Hub.Run` and a call of
`Hub.Broadcast`. -/
inductive Op (M : Type) where
  | register (client : Ptr)
  | unregister (client : Ptr)
  | broadcast (message : M) (ignore : Option Ptr)
deriving DecidableEq

/-- Execute one operation. -/
def step {M : Type} (marshalMap : List (String × String) → Payload) (marshal : M → Payload)
    (s : State) : Op M → Result State
  | .register c => onConnect marshalMap s c
  | .unregister c => onDisconnect s c
  | .broadcast m ig => Broadcast marshal s m ig

/-- Execute operations one after another, none overlapping another; stops at
the first one that does not return. -/
def run {M : Type} (marshalMap : List (String × String) → Payload) (marshal : M → Payload) :
    State → List (Op M) → Result State
  | s, [] => .ok s
  | s, op :: ops =>
    match step marshalMap marshal s op with
    | .ok s1 => run marshalMap marshal s1 ops
    | r => r

/-- The identifiers of the members, in list order. -/
def State.ids (s : State) : List String :=
  s.hub.clients.map (fun p => (s.mem p).id)

/-- The payloads that went to the peer's outbound channel. -/
def State.queue (s : State) (p : Ptr) : List Payload :=
  (s.mem p).outbound

/-- The number of sends `Broadcast` makes to peer `p` while it walks `l`. -/
def sends (ignore : Option Ptr) (l : List Ptr) (p : Ptr) : Nat :=
  if some p = ignore then 0 else l.count p

/-- The client after `n` more copies of `data` went to its channel. -/
def Client.pushed (cl : Client) (n : Nat) (data : Payload) : Client :=
  { cl with outbound := cl.outbound ++ List.replicate n data }

/-- The client after `onConnect` set its identifier and sent it `data`. -/
def Client.welcomed (cl : Client) (data : Payload) : Client :=
  { cl with id := cl.socket.remoteAddr, outbound := cl.outbound ++ [data] }

/-- The payload a broadcast operation puts on the channels. -/
def broadcastPayload {M : Type} (marshal : M → Payload) : Op M → Option Payload
  | .broadcast m _ => some (marshal m)
  | _ => none

/-- A register call is fresh when the peer is not a member and its remote
address is not the identifier of a member. -/
def freshRegister (s : State) (c : Ptr) : Bool :=
  decide (c ∉ s.hub.clients) && decide ((s.mem c).socket.remoteAddr ∉ s.ids)

/-- Every register call of the trace is fresh in the state it is made in. -/
def freshTrace {M : Type} (marshalMap : List (String × String) → Payload)
    (marshal : M → Payload) : State → List (Op M) → Bool
  | _, [] => true
  | s, op :: ops =>
    (match op with
      | .register c => freshRegister s c
      | _ => true) &&
    (match step marshalMap marshal s op with
      | .ok s1 => freshTrace marshalMap marshal s1 ops
      | _ => true)

/-- The state a call returned with, `d` when it did not return. -/
def Result.stateOr (r : Result State) (d : State) : State :=
  match r with
  | .ok s => s
  | _ => d

/-- Three clients as `NewClient` makes them; 3 has the remote address of 1. -/
def exampleMem : Ptr → Client := fun p =>
  if p = 1 then NewClient { remoteAddr := "10.0.0.1:5000", closed := false } "uuid-1"
  else if p = 2 then NewClient { remoteAddr := "10.0.0.2:5000", closed := false } "uuid-2"
  else NewClient { remoteAddr := "10.0.0.1:5000", closed := false } "uuid-3"

/-- Every outbound loop takes from its channel. -/
def noStall : Ptr → Bool := fun _ => false

/-- A stand-in for `json.Marshal` on maps, for the examples. -/
def exampleMarshalMap : List (String × String) → Payload :=
  fun m => String.intercalate ";" (m.map (fun kv => kv.1 ++ "=" ++ kv.2))

/-- The fresh hub over `exampleMem`. -/
def exampleInit : State := initState exampleMem noStall

/-- Members 1 and 2, with the outbound loop of 1 stalled. -/
def exampleStalled : State :=
  { hub := { clients := [1, 2] }, mem := exampleMem, stalled := fun p => decide (p = 1) }

/-- Members 1 and 2, nobody stalled. -/
def exampleTwo : State :=
  { hub := { clients := [1, 2] }, mem := exampleMem, stalled := noStall }

end Pusher

namespace Events

/-- The payload of a bus message, `m.Data`: bytes. -/
abbrev Data := List Nat

/-- Modelled from the spec: the declaration of `CreatedFeedMessage` is not
among the source files; it carries the four fields `PublishCreatedFeed` fills
in, identifier, title, description and creation timestamp.  The timestamp (a
`time.Time`) is an instant counted in nanoseconds from Go's zero time. -/
structure CreatedFeedMessage where
  ID : String
  Title : String
  Description : String
  CreatedAt : Int
deriving DecidableEq

/-- The zero value `CreatedFeedMessage{}`. -/
def CreatedFeedMessage.zero : CreatedFeedMessage :=
  { ID := "", Title := "", Description := "", CreatedAt := 0 }

/-- The call `gob.NewDecoder(&b).Decode(m)` for `m` a `*CreatedFeedMessage`: from the
bytes and the content of the target before the call, the content of the
target after the call and whether the returned error is nil. -/
abbrev Decoder := Data → CreatedFeedMessage → CreatedFeedMessage × Bool

/-- The method `NatsEventStore.decodeMessage(data, m)`. -/
def decodeMessage (gob : Decoder) (data : Data) (m : CreatedFeedMessage) :
    CreatedFeedMessage × Bool :=
  -- b := bytes.Buffer{}; b.Write(data)
  gob data m

/-- The subscription callback of `OnCreatedFeed`, invoked on the messages of
the stream one after the other.  `msg` is the variable the closure captured,
`calls` the arguments `f` has been called with. -/
def onCreatedFeedCallbacks (gob : Decoder) :
    List Data → CreatedFeedMessage → List CreatedFeedMessage →
      CreatedFeedMessage × List CreatedFeedMessage
  | [], msg, calls => (msg, calls)
  | m :: ms, msg, calls =>
    -- n.decodeMessage(m.Data, &msg)
    let msg1 := (decodeMessage gob m msg).1
    -- f(msg)
    onCreatedFeedCallbacks gob ms msg1 (calls ++ [msg1])

/-- The method `OnCreatedFeed(f)` on a stream of bus messages: the arguments of the calls
of `f`, in order. -/
def OnCreatedFeed (gob : Decoder) (stream : List Data) : List CreatedFeedMessage :=
  -- msg := CreatedFeedMessage{}
  (onCreatedFeedCallbacks gob stream CreatedFeedMessage.zero []).2

/-- The `for m := range ch` loop of `SubscribeCreatedFeed`; `sent` lists the
values put on `n.feedCreatedChan`, which the subscriber is taken to drain. -/
def subscribeLoop (gob : Decoder) : List Data → List CreatedFeedMessage → List CreatedFeedMessage
  | [], sent => sent
  | m :: ms, sent =>
    -- var msg CreatedFeedMessage
    let msg := CreatedFeedMessage.zero
    -- n.decodeMessage(m.Data, &msg)
    let msg1 := (decodeMessage gob m msg).1
    -- n.feedCreatedChan <- msg
    subscribeLoop gob ms (sent ++ [msg1])

/-- The method `SubscribeCreatedFeed(ctx)` on a stream of bus messages: the values put
on the returned channel, in order. -/
def SubscribeCreatedFeed (gob : Decoder) (stream : List Data) : List CreatedFeedMessage :=
  subscribeLoop gob stream []

/-- What the specification asks of a subscription: a message whose payload
fails to decode is dropped, every other message is delivered with its decoded
fields. -/
def specDeliveries (gob : Decoder) (stream : List Data) : List CreatedFeedMessage :=
  stream.filterMap (fun d =>
    if (gob d CreatedFeedMessage.zero).2 then some (gob d CreatedFeedMessage.zero).1 else none)

/-- A decoder for the examples: no bytes is a decoding error that leaves the
target as it is, anything else decodes to a message stamped with the first
byte. -/
def exampleGob : Decoder := fun data m =>
  match data with
  | [] => (m, false)
  | n :: _ => ({ ID := "feed", Title := "title", Description := "text", CreatedAt := n }, true)

end Events

namespace Models

/-- The struct `Feed` of models/feed.go; the creation time (a `time.Time`) is
an instant counted in nanoseconds from Go's zero time. -/
structure Feed where
  ID : String
  Title : String
  Description : String
  CreatedAt : Int
deriving DecidableEq

end Models

namespace Events

/-- The call `gob.NewEncoder(&b).Encode(msg)` followed by `b.Bytes()`: the
bytes, or `none` when `Encode` returns an error. -/
abbrev Encoder := CreatedFeedMessage → Option Data

/-- The method `NatsEventStore.encodeMessage(msg)`. -/
def encodeMessage (gob : Encoder) (msg : CreatedFeedMessage) : Option Data :=
  gob msg

/-- The message `PublishCreatedFeed` builds from a feed. -/
def createdFeedMessageOf (feed : Models.Feed) : CreatedFeedMessage :=
  { ID := feed.ID, Title := feed.Title, Description := feed.Description,
    CreatedAt := feed.CreatedAt }

/-- The method `NatsEventStore.PublishCreatedFeed(ctx, feed)`: the subject
and bytes handed to `n.conn.Publish`, or `none` when encoding failed and the
method returned the error.  `subject` is the value of `msg.Type()`, a method
declared outside the source files. -/
def PublishCreatedFeed (gob : Encoder) (subject : String) (feed : Models.Feed) :
    Option (String × Data) :=
  let msg := createdFeedMessageOf feed
  match encodeMessage gob msg with
  | none => none
  | some data => some (subject, data)

end Events

namespace Pusher

/-- Modelled from the spec: the wire message of the pusher service and its
constructor `newCreatedFeedMessage` are declared in a file that is not among
the sources.  The delivery payload is a structured message with a
discriminant field `type` and the fields of the notification: identifier,
title, description and creation timestamp. -/
structure CreatedFeedMessage where
  type : String
  ID : String
  Title : String
  Description : String
  CreatedAt : Int
deriving DecidableEq

/-- Modelled from the spec: the constructor `newCreatedFeedMessage(id, title,
description, createdAt)`, missing from the sources, builds the "created"
message that carries the four values it is given. -/
def newCreatedFeedMessage (id title description : String) (createdAt : Int) :
    CreatedFeedMessage :=
  { type := "created", ID := id, Title := title, Description := description,
    CreatedAt := createdAt }

/-- The callback `main` hands to `OnCreatedFeed`:
`hub.Broadcast(newCreatedFeedMessage(m.ID, m.Title, m.Description, m.CreatedAt), nil)`. -/
def createdFeedCallback (marshal : CreatedFeedMessage → Payload) (s : State)
    (m : Events.CreatedFeedMessage) : Result State :=
  Broadcast marshal s (newCreatedFeedMessage m.ID m.Title m.Description m.CreatedAt) none

/-- Cut a text at every bar; `cur` holds the characters of the piece being
read, last first. -/
def splitBar : List Char → List Char → List (List Char)
  | [], cur => [cur.reverse]
  | ch :: rest, cur =>
    if ch = '|' then cur.reverse :: splitBar rest [] else splitBar rest (ch :: cur)

/-- An encoder of wire messages for the examples: the five fields separated
by bars, the timestamp written as that many strokes. -/
def exampleMarshal (w : CreatedFeedMessage) : Payload :=
  String.intercalate "|"
    [w.type, w.ID, w.Title, w.Description, String.mk (List.replicate w.CreatedAt.toNat '1')]

/-- The decoder that goes with `exampleMarshal`. -/
def exampleUnmarshal (p : Payload) : Option CreatedFeedMessage :=
  match splitBar p.data [] with
  | [t, i, ti, d, c] =>
    some { type := String.mk t, ID := String.mk i, Title := String.mk ti,
           Description := String.mk d, CreatedAt := (c.length : Int) }
  | _ => none

/-- A notification for the examples. -/
def exampleNotification : Events.CreatedFeedMessage :=
  { ID := "1", Title := "hello", Description := "first feed", CreatedAt := 3 }

/-- One result of `c.socket.ReadMessage()`: a frame with its content, or an
error (a failed read or a closed connection). -/
inductive ReadResult where
  | frame (message : Payload)
  | error
deriving DecidableEq

/-- What a run of `Client.Read` leaves: the state, the clients sent on
`hub.unregister`, and the read results it did not get to. -/
structure ReadLog where
  state : State
  unregister : List Ptr
  rest : List ReadResult

/-- The `for` loop of `Client.Read` on the results the socket will give.
With no result left `ReadMessage` waits. -/
def readLoop (c : Ptr) : List ReadResult → State → Result (State × List ReadResult)
  | [], s => .blocked (s, [])
  -- if err != nil { break }
  | .error :: rest, s => .ok (s, rest)
  | .frame message :: rest, s =>
    -- c.outbound <- message
    match send s c message with
    | .ok s1 => readLoop c rest s1
    | .blocked s1 => .blocked (s1, rest)
    | .panic => .panic

/-- The method `Client.Read`.  When the loop is left the deferred function
sends the client on `hub.unregister`, which `Hub.Run` is taken to receive. -/
def Read (s : State) (c : Ptr) (reads : List ReadResult) : Result ReadLog :=
  match readLoop c reads s with
  | .ok (s1, rest) => .ok { state := s1, unregister := [c], rest := rest }
  | .blocked (s1, rest) => .blocked { state := s1, unregister := [], rest := rest }
  | .panic => .panic

/-- A frame handed to `c.socket.WriteMessage`. -/
inductive Frame where
  | text (data : Payload)
  | ping (data : Payload)
  | close
deriving DecidableEq

/-- What the `select` of `Client.Write` gets next, with whether the
`WriteMessage` it leads to returns a nil error. -/
inductive WriteEvent where
  /-- `case message := <-c.outbound` -/
  | message (data : Payload) (written : Bool)
  /-- `case <-ticker.C` -/
  | tick (written : Bool)
deriving DecidableEq

/-- The frame the event makes `Write` hand to `WriteMessage`. -/
def WriteEvent.frame : WriteEvent → Frame
  | .message data _ => .text data
  | .tick _ => .ping "keepalive"

/-- Whether the write of the event returns a nil error. -/
def WriteEvent.written : WriteEvent → Bool
  | .message _ w => w
  | .tick w => w

/-- The payload the event took from the outbound channel, if any. -/
def WriteEvent.payload : WriteEvent → Option Payload
  | .message data _ => some data
  | .tick _ => none

/-- What a run of `Client.Write` leaves: the calls of `WriteMessage` in order,
each with whether it returned a nil error, the clients sent on
`hub.unregister`, and the events it did not get to. -/
structure WriteLog where
  calls : List (Frame × Bool)
  unregister : List Ptr
  rest : List WriteEvent
deriving DecidableEq

/-- The `for`/`select` loop of `Client.Write`.  With no event left the
`select` waits. -/
def writeLoop : List WriteEvent → List (Frame × Bool) →
    Result (List (Frame × Bool) × List WriteEvent)
  | [], calls => .blocked (calls, [])
  | .message data w :: rest, calls =>
    -- err := c.socket.WriteMessage(websocket.TextMessage, message)
    if w then writeLoop rest (calls ++ [(.text data, true)])
    -- if err != nil { return }
    else .ok (calls ++ [(.text data, false)], rest)
  | .tick w :: rest, calls =>
    -- err := c.socket.WriteMessage(websocket.PingMessage, []byte("keepalive"))
    if w then writeLoop rest (calls ++ [(.ping "keepalive", true)])
    else .ok (calls ++ [(.ping "keepalive", false)], rest)

/-- The method `Client.Write`.  When the loop is left the deferred function
writes a close frame; `closeWritten` tells whether that write succeeds.
Nothing in the method sends on `hub.unregister`. -/
def Write (closeWritten : Bool) (events : List WriteEvent) : Result WriteLog :=
  match writeLoop events [] with
  | .ok (calls, rest) =>
    .ok { calls := calls ++ [(.close, closeWritten)], unregister := [], rest := rest }
  | .blocked (calls, rest) => .blocked { calls := calls, unregister := [], rest := rest }
  | .panic => .panic

/-- The data frames the transport got: the text frames whose write
succeeded, in order. -/
def dataFrames (calls : List (Frame × Bool)) : List Payload :=
  calls.filterMap (fun call =>
    match call with
    | (.text data, true) => some data
    | _ => none)

/-- An operation on the hub's mutex or on its `clients` slice, or a push on a
peer's outbound channel. -/
inductive Access where
  /-- `h.mutex.Lock()` -/
  | lock
  /-- `h.mutex.Unlock()` -/
  | unlock
  /-- a read of `h.clients` -/
  | readClients
  /-- a write of `h.clients` or of one of its elements -/
  | writeClients
  /-- `client.outbound <- data` -/
  | push (client : Ptr)
deriving DecidableEq

/-- The loop of `Hub.Broadcast` as `broadcastLoop` runs it, with the log of
its list and channel operations: every iteration of the `range` reads the next
element of `h.clients`, then comes the push when the client is not `ignore`.
The method has no mutex operation, so none is logged. -/
def broadcastLoopLogged (data : Payload) (ignore : Option Ptr) :
    List Ptr → State → List Access → Result State × List Access
  | [], s, log => (.ok s, log)
  | client :: rest, s, log =>
    if some client ≠ ignore then
      match send s client data with
      | .ok s1 =>
        broadcastLoopLogged data ignore rest s1 (log ++ [.readClients, .push client])
      | r => (r, log ++ [.readClients, .push client])
    else broadcastLoopLogged data ignore rest s (log ++ [.readClients])

/-- The method `Hub.Broadcast(message, ignore)` with the log of its list and
channel operations; the log starts with the read of `h.clients` by the
`range` statement. -/
def BroadcastLogged {M : Type} (marshal : M → Payload) (s : State) (message : M)
    (ignore : Option Ptr) : Result State × List Access :=
  let data := marshal message
  broadcastLoopLogged data ignore s.hub.clients s [.readClients]

/-- The statements of `Hub.onConnect` before the welcome push: the identifier
is set and the client appended. -/
def onConnectAppend (s : State) (client : Ptr) : State :=
  -- client.id = client.socket.RemoteAddr().String()
  let s1 := s.update client (fun cl => { cl with id := cl.socket.remoteAddr })
  -- h.clients = append(h.clients, client)
  { s1 with hub := { clients := s1.hub.clients ++ [client] } }

/-- The rest of `Hub.onConnect`: the welcome payload is encoded and pushed. -/
def onConnectWelcome (marshalMap : List (String × String) → Payload) (s : State)
    (client : Ptr) : Result State :=
  let data := marshalMap welcomeMessage
  send s client data

/-- Every read and write of `clients` in the sequence happens while the mutex
is held; `held` tells whether it is held at the start. -/
def clientsGuarded : Bool → List Access → Bool
  | _, [] => true
  | _, .lock :: rest => clientsGuarded true rest
  | _, .unlock :: rest => clientsGuarded false rest
  | held, .readClients :: rest => held && clientsGuarded held rest
  | held, .writeClients :: rest => held && clientsGuarded held rest
  | held, .push _ :: rest => clientsGuarded held rest

end Pusher

namespace Pusher

@[simp] theorem State.update_hub (s : State) (c : Ptr) (f : Client → Client) :
    (s.update c f).hub = s.hub := rfl

@[simp] theorem State.update_stalled (s : State) (c : Ptr) (f : Client → Client) :
    (s.update c f).stalled = s.stalled := rfl

theorem State.update_mem (s : State) (c : Ptr) (f : Client → Client) (p : Ptr) :
    (s.update c f).mem p = if p = c then f (s.mem p) else s.mem p := rfl

theorem closeSocket_id (s : State) (client p : Ptr) :
    ((closeSocket s client).mem p).id = (s.mem p).id := by
  unfold closeSocket
  rw [State.update_mem]
  split <;> rfl

theorem closeSocket_outbound (s : State) (client p : Ptr) :
    ((closeSocket s client).mem p).outbound = (s.mem p).outbound := by
  unfold closeSocket
  rw [State.update_mem]
  split <;> rfl

theorem rangeLoop_not_found (mem : Ptr → Client) (id : String) :
    ∀ (l : List Ptr) (j : Nat) (i : Int), (∀ c ∈ l, (mem c).id ≠ id) →
      rangeLoop mem id l j i = i := by
  intro l
  induction l with
  | nil => intro j i _; rfl
  | cons c cs ih =>
    intro j i h
    have hc : (mem c).id ≠ id := h c (List.mem_cons_self _ _)
    simp only [rangeLoop, if_neg hc]
    exact ih (j + 1) i (fun d hd => h d (List.mem_cons_of_mem _ hd))

theorem rangeLoop_found (mem : Ptr → Client) (id : String) (c : Ptr) (post : List Ptr)
    (hc : (mem c).id = id) (hpost : ∀ d ∈ post, (mem d).id ≠ id) :
    ∀ (pre : List Ptr) (j : Nat) (i : Int),
      rangeLoop mem id (pre ++ c :: post) j i = ((j + pre.length : Nat) : Int) := by
  intro pre
  induction pre with
  | nil =>
    intro j i
    simp only [List.nil_append, rangeLoop, if_pos hc, List.length_nil, Nat.add_zero]
    exact rangeLoop_not_found mem id post (j + 1) j hpost
  | cons d ds ih =>
    intro j i
    show rangeLoop mem id (ds ++ c :: post) (j + 1) _ = _
    rw [ih, List.length_cons]
    congr 1
    omega

/-- A list with an element satisfying `P` splits at the last such element. -/
theorem exists_last_split {α : Type} (P : α → Prop) :
    ∀ (l : List α), (∃ a ∈ l, P a) →
      ∃ pre c post, l = pre ++ c :: post ∧ P c ∧ ∀ d ∈ post, ¬ P d := by
  intro l
  induction l with
  | nil => rintro ⟨a, ha, _⟩; cases ha
  | cons x xs ih =>
    rintro ⟨a, ha, hPa⟩
    by_cases hxs : ∃ b ∈ xs, P b
    · obtain ⟨pre, c, post, hl, hPc, hpost⟩ := ih hxs
      exact ⟨x :: pre, c, post, by rw [hl]; rfl, hPc, hpost⟩
    · have hx : P x := by
        rcases List.mem_cons.mp ha with h | h
        · exact h ▸ hPa
        · exact absurd ⟨a, h, hPa⟩ hxs
      refine ⟨[], x, xs, rfl, hx, fun d hd hPd => hxs ⟨d, hd, hPd⟩⟩

theorem goCopy_shift {α : Type} (c : α) (post : List α) :
    ∃ x, goCopy (c :: post) post = post ++ [x] := by
  unfold goCopy
  have h1 : post.take (c :: post).length = post := by
    apply List.take_of_length_le; simp
  rw [h1]
  have h2 : ((c :: post).drop post.length).length = 1 := by simp
  match h : (c :: post).drop post.length, h2 with
  | [x], _ => exact ⟨x, rfl⟩

theorem removeAt_split {α : Type} (pre : List α) (c : α) (post : List α) :
    removeAt (pre ++ c :: post) (pre.length : Int) = some (pre ++ post) := by
  obtain ⟨x, hx⟩ := goCopy_shift c post
  have hs1 : sliceFrom (pre ++ c :: post) (pre.length : Int) = some (c :: post) := by
    have h2 : (0 : Int) ≤ (pre.length : Int) ∧
        (pre.length : Int) ≤ ((pre ++ c :: post).length : Int) := by
      constructor
      · omega
      · simp only [List.length_append, List.length_cons]; omega
    simp only [sliceFrom, if_pos h2, Int.toNat_ofNat, List.drop_left]
  have hs2 : sliceFrom (pre ++ c :: post) ((pre.length : Int) + 1) = some post := by
    have h1 : ((pre.length : Int) + 1).toNat = pre.length + 1 := by omega
    have h2 : (0 : Int) ≤ (pre.length : Int) + 1 ∧
        (pre.length : Int) + 1 ≤ ((pre ++ c :: post).length : Int) := by
      constructor
      · omega
      · simp only [List.length_append, List.length_cons]; omega
    simp only [sliceFrom, h1, if_pos h2]
    rw [List.drop_append_eq_append_drop]
    simp
  have hlen : (pre ++ (post ++ [x])).length = (pre ++ post).length + 1 := by
    simp only [List.length_append, List.length_cons, List.length_nil]; omega
  simp only [removeAt, hs1, hs2, hx, Int.toNat_ofNat, List.take_left]
  rw [if_neg (by rw [hlen]; omega), hlen, Nat.add_sub_cancel, ← List.append_assoc,
    List.take_left]

theorem removeAt_neg {α : Type} (cs : List α) (i : Int) (hi : i < 0) :
    removeAt cs i = none := by
  have h : sliceFrom cs i = none := by
    unfold sliceFrom
    rw [if_neg]
    omega
  simp [removeAt, h]

theorem onDisconnect_found (s : State) (client c : Ptr) (pre post : List Ptr)
    (hl : s.hub.clients = pre ++ c :: post)
    (hc : (s.mem c).id = (s.mem client).id)
    (hpost : ∀ d ∈ post, (s.mem d).id ≠ (s.mem client).id) :
    onDisconnect s client =
      .ok { closeSocket s client with hub := { clients := pre ++ post } } := by
  have hcl : (closeSocket s client).hub.clients = pre ++ c :: post := hl
  have hi : rangeLoop (closeSocket s client).mem ((closeSocket s client).mem client).id
      (pre ++ c :: post) 0 (-1) = ((0 + pre.length : Nat) : Int) := by
    apply rangeLoop_found
    · rw [closeSocket_id, closeSocket_id]; exact hc
    · intro d hd; rw [closeSocket_id, closeSocket_id]; exact hpost d hd
  simp only [onDisconnect, hcl, hi, Nat.zero_add, removeAt_split]

theorem onDisconnect_not_found (s : State) (client : Ptr)
    (h : ∀ q ∈ s.hub.clients, (s.mem q).id ≠ (s.mem client).id) :
    onDisconnect s client = .panic := by
  have hcl : (closeSocket s client).hub.clients = s.hub.clients := rfl
  have hi : rangeLoop (closeSocket s client).mem ((closeSocket s client).mem client).id
      s.hub.clients 0 (-1) = -1 := by
    apply rangeLoop_not_found
    intro d hd; rw [closeSocket_id, closeSocket_id]; exact h d hd
  simp only [onDisconnect, hcl, hi, removeAt_neg _ (-1) (by omega)]

theorem Client.pushed_zero (cl : Client) (data : Payload) : cl.pushed 0 data = cl := by
  simp [Client.pushed]

theorem sends_nil (ignore : Option Ptr) (p : Ptr) : sends ignore [] p = 0 := by
  simp [sends]

theorem sends_cons_ignored (ignore : Option Ptr) (c : Ptr) (l : List Ptr) (p : Ptr)
    (hc : some c = ignore) : sends ignore (c :: l) p = sends ignore l p := by
  by_cases hp : some p = ignore
  · simp [sends, hp]
  · have hpc : c ≠ p := by
      intro h; subst h; exact hp hc
    simp [sends, hp, List.count_cons, hpc]

theorem sends_cons_self (ignore : Option Ptr) (c : Ptr) (l : List Ptr)
    (hc : some c ≠ ignore) : sends ignore (c :: l) c = sends ignore l c + 1 := by
  simp [sends, hc]

theorem sends_cons_other (ignore : Option Ptr) (c : Ptr) (l : List Ptr) (p : Ptr)
    (hpc : p ≠ c) : sends ignore (c :: l) p = sends ignore l p := by
  have hcp : c ≠ p := fun h => hpc h.symm
  by_cases hp : some p = ignore
  · simp [sends, hp]
  · simp [sends, hp, List.count_cons, hcp]

/-- The heap after one send to `c`, seen at `p`, followed by `n` more. -/
theorem pushed_after_send (s : State) (c p : Ptr) (data : Payload) (ignore : Option Ptr)
    (l : List Ptr) (hc : some c ≠ ignore) :
    ((s.update c (fun cl => { cl with outbound := cl.outbound ++ [data] })).mem p).pushed
        (sends ignore l p) data
      = (s.mem p).pushed (sends ignore (c :: l) p) data := by
  rw [State.update_mem]
  by_cases hpc : p = c
  · subst hpc
    rw [if_pos rfl, sends_cons_self ignore p l hc]
    simp [Client.pushed, List.replicate_succ]
  · rw [if_neg hpc, sends_cons_other ignore c l p hpc]

theorem broadcastLoop_of_ok (data : Payload) (ignore : Option Ptr) :
    ∀ (l : List Ptr) (s s1 : State), broadcastLoop data ignore l s = .ok s1 →
      s1.hub = s.hub ∧ s1.stalled = s.stalled ∧
        ∀ p, s1.mem p = (s.mem p).pushed (sends ignore l p) data := by
  intro l
  induction l with
  | nil =>
    intro s s1 h
    simp only [broadcastLoop, Result.ok.injEq] at h
    subst h
    exact ⟨rfl, rfl, fun p => by rw [sends_nil, Client.pushed_zero]⟩
  | cons c rest ih =>
    intro s s1 h
    by_cases hc : some c = ignore
    · simp only [broadcastLoop, hc, ne_eq, not_true_eq_false, if_false] at h
      obtain ⟨h2, h3, h4⟩ := ih s s1 h
      exact ⟨h2, h3, fun p => by rw [h4 p, sends_cons_ignored ignore c rest p hc]⟩
    · by_cases hst : s.stalled c = true
      · simp [broadcastLoop, hc, send, hst] at h
      · simp only [broadcastLoop, ne_eq, hc, not_false_eq_true, if_true, send, hst,
          Bool.false_eq_true, if_false] at h
        obtain ⟨h2, h3, h4⟩ := ih _ s1 h
        exact ⟨h2, h3, fun p => by rw [h4 p, pushed_after_send s c p data ignore rest hc]⟩

theorem broadcastLoop_ready (data : Payload) (ignore : Option Ptr) :
    ∀ (l : List Ptr) (s : State),
      (∀ c ∈ l, some c ≠ ignore → s.stalled c = false) →
      ∃ s1, broadcastLoop data ignore l s = .ok s1 := by
  intro l
  induction l with
  | nil => intro s _; exact ⟨s, rfl⟩
  | cons c rest ih =>
    intro s hready
    by_cases hc : some c = ignore
    · obtain ⟨s1, h1⟩ := ih s (fun d hd => hready d (List.mem_cons_of_mem _ hd))
      exact ⟨s1, by simp [broadcastLoop, hc, h1]⟩
    · have hst : s.stalled c = false := hready c (List.mem_cons_self _ _) hc
      obtain ⟨s1, h1⟩ := ih (s.update c (fun cl => { cl with outbound := cl.outbound ++ [data] }))
        (fun d hd => hready d (List.mem_cons_of_mem _ hd))
      exact ⟨s1, by simp [broadcastLoop, hc, send, hst, h1]⟩

theorem broadcastLoop_blocked (data : Payload) (ignore : Option Ptr) (q : Ptr)
    (post : List Ptr) (hq : some q ≠ ignore) :
    ∀ (pre : List Ptr) (s : State), s.stalled q = true →
      (∀ c ∈ pre, some c ≠ ignore → s.stalled c = false) →
      ∃ s1, broadcastLoop data ignore (pre ++ q :: post) s = .blocked s1 ∧
        s1.hub = s.hub ∧ s1.stalled = s.stalled ∧
        ∀ p, s1.mem p = (s.mem p).pushed (sends ignore pre p) data := by
  intro pre
  induction pre with
  | nil =>
    intro s hst _
    refine ⟨s, ?_, rfl, rfl, fun p => by rw [sends_nil, Client.pushed_zero]⟩
    simp [broadcastLoop, hq, send, hst]
  | cons c rest ih =>
    intro s hst hready
    by_cases hc : some c = ignore
    · obtain ⟨s1, h1, h2, h3, h4⟩ :=
        ih s hst (fun d hd => hready d (List.mem_cons_of_mem _ hd))
      refine ⟨s1, ?_, h2, h3, fun p => by rw [h4 p, sends_cons_ignored ignore c rest p hc]⟩
      simp [broadcastLoop, hc, h1]
    · have hstc : s.stalled c = false := hready c (List.mem_cons_self _ _) hc
      obtain ⟨s1, h1, h2, h3, h4⟩ :=
        ih (s.update c (fun cl => { cl with outbound := cl.outbound ++ [data] })) hst
          (fun d hd => hready d (List.mem_cons_of_mem _ hd))
      refine ⟨s1, ?_, h2, h3,
        fun p => by rw [h4 p, pushed_after_send s c p data ignore rest hc]⟩
      simp [broadcastLoop, hc, send, hstc, h1]

/-- A list with an element satisfying `P` splits at the first such element. -/
theorem exists_first_split {α : Type} (P : α → Prop) :
    ∀ (l : List α), (∃ a ∈ l, P a) →
      ∃ pre c post, l = pre ++ c :: post ∧ P c ∧ ∀ d ∈ pre, ¬ P d := by
  intro l
  induction l with
  | nil => rintro ⟨a, ha, _⟩; cases ha
  | cons x xs ih =>
    rintro ⟨a, ha, hPa⟩
    by_cases hx : P x
    · exact ⟨[], x, xs, rfl, hx, fun d hd => by cases hd⟩
    · have hxs : ∃ b ∈ xs, P b := by
        rcases List.mem_cons.mp ha with h | h
        · exact absurd (h ▸ hPa) hx
        · exact ⟨a, h, hPa⟩
      obtain ⟨pre, c, post, hl, hPc, hpre⟩ := ih hxs
      refine ⟨x :: pre, c, post, by rw [hl]; rfl, hPc, ?_⟩
      intro d hd
      rcases List.mem_cons.mp hd with h | h
      · exact h ▸ hx
      · exact hpre d h

theorem onConnect_eq (marshalMap : List (String × String) → Payload) (s : State)
    (client : Ptr) :
    ∃ s1 : State, onConnect marshalMap s client
        = (if s.stalled client then Result.blocked
            { s with
              hub := { clients := s.hub.clients ++ [client] }
              mem := fun p =>
                if p = client then { s.mem p with id := (s.mem p).socket.remoteAddr }
                else s.mem p }
          else Result.ok s1) ∧
      s1.hub.clients = s.hub.clients ++ [client] ∧ s1.stalled = s.stalled ∧
      ∀ p, s1.mem p =
        if p = client then (s.mem p).welcomed (marshalMap welcomeMessage) else s.mem p := by
  refine ⟨{ s with
      hub := { clients := s.hub.clients ++ [client] }
      mem := fun p =>
        if p = client then (s.mem p).welcomed (marshalMap welcomeMessage) else s.mem p },
    ?_, rfl, rfl, fun p => rfl⟩
  by_cases hst : s.stalled client = true
  · simp only [onConnect, send, State.update, hst, if_true]
  · simp only [onConnect, send, State.update, hst, Bool.false_eq_true, if_false,
      Result.ok.injEq, State.mk.injEq, true_and, and_true]
    funext p
    by_cases hp : p = client
    · simp [hp, Client.welcomed]
    · simp [hp]

theorem onConnect_of_ok (marshalMap : List (String × String) → Payload) (s s1 : State)
    (client : Ptr) (h : onConnect marshalMap s client = .ok s1) :
    s.stalled client = false ∧
    s1.hub.clients = s.hub.clients ++ [client] ∧ s1.stalled = s.stalled ∧
      ∀ p, s1.mem p =
        if p = client then (s.mem p).welcomed (marshalMap welcomeMessage) else s.mem p := by
  obtain ⟨s2, h1, h2, h3, h4⟩ := onConnect_eq marshalMap s client
  by_cases hst : s.stalled client = true
  · rw [h1, if_pos hst] at h
    cases h
  · rw [h1, if_neg hst] at h
    cases h
    exact ⟨by simpa using hst, h2, h3, h4⟩

theorem onConnect_ready (marshalMap : List (String × String) → Payload) (s : State)
    (client : Ptr) (hst : s.stalled client = false) :
    ∃ s1, onConnect marshalMap s client = .ok s1 := by
  obtain ⟨s2, h1, _⟩ := onConnect_eq marshalMap s client
  exact ⟨s2, by rw [h1, hst]; rfl⟩

theorem onDisconnect_of_ok (s s1 : State) (client : Ptr)
    (h : onDisconnect s client = .ok s1) :
    ∃ pre d post, s.hub.clients = pre ++ d :: post ∧
      (s.mem d).id = (s.mem client).id ∧
      (∀ e ∈ post, (s.mem e).id ≠ (s.mem client).id) ∧
      s1 = { closeSocket s client with hub := { clients := pre ++ post } } := by
  by_cases hex : ∃ d ∈ s.hub.clients, (s.mem d).id = (s.mem client).id
  · obtain ⟨pre, d, post, hl, hd, hpost⟩ :=
      exists_last_split (fun d => (s.mem d).id = (s.mem client).id) s.hub.clients hex
    rw [onDisconnect_found s client d pre post hl hd hpost] at h
    cases h
    exact ⟨pre, d, post, hl, hd, hpost, rfl⟩
  · rw [onDisconnect_not_found s client (fun q hq hid => hex ⟨q, hq, hid⟩)] at h
    cases h

theorem Broadcast_of_ok {M : Type} (marshal : M → Payload) (s s1 : State) (message : M)
    (ignore : Option Ptr) (h : Broadcast marshal s message ignore = .ok s1) :
    s1.hub = s.hub ∧ s1.stalled = s.stalled ∧
      ∀ p, s1.mem p = (s.mem p).pushed (sends ignore s.hub.clients p) (marshal message) :=
  broadcastLoop_of_ok (marshal message) ignore s.hub.clients s s1 h

theorem run_append {M : Type} (marshalMap : List (String × String) → Payload)
    (marshal : M → Payload) :
    ∀ (a b : List (Op M)) (s : State),
      run marshalMap marshal s (a ++ b) =
        match run marshalMap marshal s a with
        | .ok s1 => run marshalMap marshal s1 b
        | r => r := by
  intro a
  induction a with
  | nil => intro b s; rfl
  | cons op ops ih =>
    intro b s
    simp only [List.cons_append, run]
    cases hstep : step marshalMap marshal s op with
    | ok s1 => exact ih b s1
    | blocked s1 => rfl
    | panic => rfl

theorem run_append_of_ok {M : Type} (marshalMap : List (String × String) → Payload)
    (marshal : M → Payload) (a b : List (Op M)) (s s2 : State)
    (h : run marshalMap marshal s (a ++ b) = .ok s2) :
    ∃ s1, run marshalMap marshal s a = .ok s1 ∧ run marshalMap marshal s1 b = .ok s2 := by
  rw [run_append] at h
  cases hrun : run marshalMap marshal s a with
  | ok s1 => rw [hrun] at h; exact ⟨s1, rfl, h⟩
  | blocked s1 => rw [hrun] at h; cases h
  | panic => rw [hrun] at h; cases h

theorem run_cons_of_ok {M : Type} (marshalMap : List (String × String) → Payload)
    (marshal : M → Payload) (op : Op M) (ops : List (Op M)) (s s2 : State)
    (h : run marshalMap marshal s (op :: ops) = .ok s2) :
    ∃ s1, step marshalMap marshal s op = .ok s1 ∧ run marshalMap marshal s1 ops = .ok s2 := by
  simp only [run] at h
  cases hstep : step marshalMap marshal s op with
  | ok s1 => rw [hstep] at h; exact ⟨s1, rfl, h⟩
  | blocked s1 => rw [hstep] at h; cases h
  | panic => rw [hstep] at h; cases h

theorem ids_onConnect (marshalMap : List (String × String) → Payload) (s s1 : State)
    (c : Ptr) (h : onConnect marshalMap s c = .ok s1) (hc : c ∉ s.hub.clients) :
    s1.ids = s.ids ++ [(s.mem c).socket.remoteAddr] := by
  obtain ⟨_, h2, _, h4⟩ := onConnect_of_ok marshalMap s s1 c h
  simp only [State.ids, h2, List.map_append, List.map_cons, List.map_nil]
  congr 1
  · apply List.map_congr_left
    intro p hp
    have hpc : p ≠ c := fun e => hc (e ▸ hp)
    rw [h4 p, if_neg hpc]
  · rw [h4 c, if_pos rfl]
    rfl

theorem ids_onDisconnect (s s1 : State) (c : Ptr) (h : onDisconnect s c = .ok s1) :
    ∃ pre d post, s.hub.clients = pre ++ d :: post ∧ s1.hub.clients = pre ++ post ∧
      (s.mem d).id = (s.mem c).id ∧
      s.ids = pre.map (fun p => (s.mem p).id) ++ (s.mem c).id ::
        post.map (fun p => (s.mem p).id) ∧
      s1.ids = pre.map (fun p => (s.mem p).id) ++ post.map (fun p => (s.mem p).id) ∧
      (∀ p, (s1.mem p).id = (s.mem p).id) ∧
      (∀ p, (s1.mem p).outbound = (s.mem p).outbound) ∧ s1.stalled = s.stalled := by
  obtain ⟨pre, d, post, hl, hd, _, hs1⟩ := onDisconnect_of_ok s s1 c h
  subst hs1
  refine ⟨pre, d, post, hl, rfl, hd, ?_, ?_, fun p => closeSocket_id s c p,
    fun p => closeSocket_outbound s c p, rfl⟩
  · simp only [State.ids, hl, List.map_append, List.map_cons, hd]
  · simp only [State.ids, List.map_append]
    congr 1 <;> exact List.map_congr_left (fun p _ => closeSocket_id s c p)

theorem ids_Broadcast {M : Type} (marshal : M → Payload) (s s1 : State) (message : M)
    (ignore : Option Ptr) (h : Broadcast marshal s message ignore = .ok s1) :
    s1.ids = s.ids := by
  obtain ⟨h2, _, h4⟩ := Broadcast_of_ok marshal s s1 message ignore h
  simp only [State.ids, h2]
  apply List.map_congr_left
  intro p _
  rw [h4 p]
  rfl

theorem onDisconnect_removes_id (s s1 : State) (c : Ptr) (hn : s.ids.Nodup)
    (h : onDisconnect s c = .ok s1) :
    c ∉ s1.hub.clients ∧ ∀ q ∈ s1.hub.clients, (s1.mem q).id ≠ (s1.mem c).id := by
  obtain ⟨pre, d, post, _, h1, _, hids, _, hid, _, _⟩ := ids_onDisconnect s s1 c h
  have hall : ∀ q ∈ s1.hub.clients, (s1.mem q).id ≠ (s1.mem c).id := by
    intro q hq
    rw [hid q, hid c]
    rw [hids] at hn
    have hnot := (List.nodup_cons.mp (List.nodup_middle.mp hn)).1
    intro heq
    apply hnot
    rw [← heq, ← List.map_append]
    rw [h1] at hq
    exact List.mem_map_of_mem _ hq
  exact ⟨fun hc => hall c hc rfl, hall⟩

theorem step_preserves_nodup_ids {M : Type} (marshalMap : List (String × String) → Payload)
    (marshal : M → Payload) (s s1 : State) (op : Op M) (hn : s.ids.Nodup)
    (hfresh : ∀ c, op = .register c → freshRegister s c = true)
    (h : step marshalMap marshal s op = .ok s1) : s1.ids.Nodup := by
  cases op with
  | register c =>
    have hf := hfresh c rfl
    simp only [freshRegister, Bool.and_eq_true, decide_eq_true_eq] at hf
    rw [ids_onConnect marshalMap s s1 c h hf.1]
    refine List.Nodup.append hn (List.nodup_singleton _) ?_
    intro a ha hb
    rw [List.mem_singleton] at hb
    exact hf.2 (hb ▸ ha)
  | unregister c =>
    obtain ⟨pre, d, post, _, _, _, hids, hids1, _⟩ := ids_onDisconnect s s1 c h
    rw [hids] at hn
    rw [hids1]
    exact (List.nodup_cons.mp (List.nodup_middle.mp hn)).2
  | broadcast m ig =>
    rw [ids_Broadcast marshal s s1 m ig h]
    exact hn

theorem run_preserves_nodup_ids {M : Type} (marshalMap : List (String × String) → Payload)
    (marshal : M → Payload) :
    ∀ (ops : List (Op M)) (s s1 : State), s.ids.Nodup →
      freshTrace marshalMap marshal s ops = true →
      run marshalMap marshal s ops = .ok s1 → s1.ids.Nodup := by
  intro ops
  induction ops with
  | nil =>
    intro s s1 hn _ h
    simp only [run, Result.ok.injEq] at h
    exact h ▸ hn
  | cons op ops ih =>
    intro s s1 hn hf h
    obtain ⟨s2, hstep, hrun⟩ := run_cons_of_ok marshalMap marshal op ops s s1 h
    simp only [freshTrace, hstep, Bool.and_eq_true] at hf
    refine ih s2 s1 ?_ hf.2 hrun
    refine step_preserves_nodup_ids marshalMap marshal s s2 op hn ?_ hstep
    intro c hc
    subst hc
    exact hf.1

theorem initState_ids_nodup (mem : Ptr → Client) (stalled : Ptr → Bool) :
    (initState mem stalled).ids.Nodup :=
  List.nodup_nil

theorem step_keeps_outsider {M : Type} (marshalMap : List (String × String) → Payload)
    (marshal : M → Payload) (c : Ptr) (s s1 : State) (op : Op M)
    (hc : c ∉ s.hub.clients) (hop : op ≠ .register c)
    (h : step marshalMap marshal s op = .ok s1) :
    c ∉ s1.hub.clients ∧ s1.queue c = s.queue c := by
  cases op with
  | register d =>
    have hcd : c ≠ d := fun e => hop (e ▸ rfl)
    obtain ⟨_, h2, _, h4⟩ := onConnect_of_ok marshalMap s s1 d h
    constructor
    · rw [h2]
      simp only [List.mem_append, List.mem_singleton, not_or]
      exact ⟨hc, hcd⟩
    · show (s1.mem c).outbound = _
      rw [h4 c, if_neg hcd]
      rfl
  | unregister d =>
    obtain ⟨pre, e, post, hl, h1, _, _, _, _, hout, _⟩ := ids_onDisconnect s s1 d h
    constructor
    · rw [h1]
      rw [hl] at hc
      simp only [List.mem_append, List.mem_cons, not_or] at hc ⊢
      exact ⟨hc.1, hc.2.2⟩
    · exact hout c
  | broadcast m ig =>
    obtain ⟨h2, _, h4⟩ := Broadcast_of_ok marshal s s1 m ig h
    constructor
    · rw [h2]; exact hc
    · have h0 : sends ig s.hub.clients c = 0 := by
        simp only [sends]
        split
        · rfl
        · exact List.count_eq_zero_of_not_mem hc
      show (s1.mem c).outbound = _
      rw [h4 c, h0, Client.pushed_zero]
      rfl

theorem run_keeps_outsider {M : Type} (marshalMap : List (String × String) → Payload)
    (marshal : M → Payload) (c : Ptr) :
    ∀ (ops : List (Op M)) (s s1 : State), c ∉ s.hub.clients →
      (∀ op ∈ ops, op ≠ .register c) →
      run marshalMap marshal s ops = .ok s1 →
      c ∉ s1.hub.clients ∧ s1.queue c = s.queue c := by
  intro ops
  induction ops with
  | nil =>
    intro s s1 hc _ h
    simp only [run, Result.ok.injEq] at h
    subst h
    exact ⟨hc, rfl⟩
  | cons op ops ih =>
    intro s s1 hc hops h
    obtain ⟨s2, hstep, hrun⟩ := run_cons_of_ok marshalMap marshal op ops s s1 h
    obtain ⟨hc2, hq2⟩ := step_keeps_outsider marshalMap marshal c s s2 op hc
      (hops op (List.mem_cons_self _ _)) hstep
    obtain ⟨hc1, hq1⟩ := ih s2 s1 hc2 (fun o ho => hops o (List.mem_cons_of_mem _ ho)) hrun
    exact ⟨hc1, hq1.trans hq2⟩

theorem step_member_once {M : Type} (marshalMap : List (String × String) → Payload)
    (marshal : M → Payload) (c : Ptr) (s s1 : State) (op : Op M)
    (hc : s.hub.clients.count c ≤ 1) (hop : op ≠ .register c)
    (h : step marshalMap marshal s op = .ok s1) :
    s1.hub.clients.count c ≤ 1 ∧
      ∃ rest, s1.queue c = s.queue c ++ rest ∧
        rest.Sublist (broadcastPayload marshal op).toList := by
  cases op with
  | register d =>
    have hcd : c ≠ d := fun e => hop (e ▸ rfl)
    obtain ⟨_, h2, _, h4⟩ := onConnect_of_ok marshalMap s s1 d h
    refine ⟨?_, [], ?_, List.nil_sublist _⟩
    · rw [h2, List.count_append, List.count_singleton]
      have : (d == c) = false := by simpa using fun e : d = c => hcd e.symm
      simp only [this, Bool.false_eq_true, if_false, Nat.add_zero]
      exact hc
    · show (s1.mem c).outbound = _
      rw [h4 c, if_neg hcd, List.append_nil]
      rfl
  | unregister d =>
    obtain ⟨pre, e, post, hl, h1, _, _, _, _, hout, _⟩ := ids_onDisconnect s s1 d h
    refine ⟨?_, [], ?_, List.nil_sublist _⟩
    · rw [hl] at hc
      rw [h1]
      simp only [List.count_append, List.count_cons] at hc ⊢
      omega
    · rw [List.append_nil]
      exact hout c
  | broadcast m ig =>
    obtain ⟨h2, _, h4⟩ := Broadcast_of_ok marshal s s1 m ig h
    refine ⟨by rw [h2]; exact hc, List.replicate (sends ig s.hub.clients c) (marshal m), ?_, ?_⟩
    · show (s1.mem c).outbound = _
      rw [h4 c]
      rfl
    · have hle : sends ig s.hub.clients c ≤ 1 := by
        simp only [sends]
        split
        · omega
        · exact hc
      simp only [broadcastPayload, Option.toList]
      rcases Nat.le_one_iff_eq_zero_or_eq_one.mp hle with h0 | h1
      · rw [h0]; exact List.nil_sublist _
      · rw [h1]; exact List.Sublist.refl _

theorem toList_append_filterMap {α β : Type} (f : α → Option β) (a : α) (l : List α) :
    (f a).toList ++ l.filterMap f = (a :: l).filterMap f := by
  rw [List.filterMap_cons]
  cases f a <;> rfl

theorem run_member_once {M : Type} (marshalMap : List (String × String) → Payload)
    (marshal : M → Payload) (c : Ptr) :
    ∀ (ops : List (Op M)) (s s1 : State), s.hub.clients.count c ≤ 1 →
      (∀ op ∈ ops, op ≠ .register c) →
      run marshalMap marshal s ops = .ok s1 →
      ∃ rest, s1.queue c = s.queue c ++ rest ∧
        rest.Sublist (ops.filterMap (broadcastPayload marshal)) := by
  intro ops
  induction ops with
  | nil =>
    intro s s1 _ _ h
    simp only [run, Result.ok.injEq] at h
    subst h
    exact ⟨[], (List.append_nil _).symm, List.nil_sublist _⟩
  | cons op ops ih =>
    intro s s1 hc hops h
    obtain ⟨s2, hstep, hrun⟩ := run_cons_of_ok marshalMap marshal op ops s s1 h
    obtain ⟨hc2, r2, hq2, hsub2⟩ := step_member_once marshalMap marshal c s s2 op hc
      (hops op (List.mem_cons_self _ _)) hstep
    obtain ⟨r1, hq1, hsub1⟩ :=
      ih s2 s1 hc2 (fun o ho => hops o (List.mem_cons_of_mem _ ho)) hrun
    refine ⟨r2 ++ r1, by rw [hq1, hq2, List.append_assoc], ?_⟩
    rw [← toList_append_filterMap]
    exact List.Sublist.append hsub2 hsub1

theorem step_preserves_nodup_clients {M : Type}
    (marshalMap : List (String × String) → Payload) (marshal : M → Payload)
    (s s1 : State) (op : Op M) (hn : s.hub.clients.Nodup)
    (hfresh : ∀ c, op = .register c → freshRegister s c = true)
    (h : step marshalMap marshal s op = .ok s1) : s1.hub.clients.Nodup := by
  cases op with
  | register c =>
    have hf := hfresh c rfl
    simp only [freshRegister, Bool.and_eq_true, decide_eq_true_eq] at hf
    obtain ⟨_, h2, _, _⟩ := onConnect_of_ok marshalMap s s1 c h
    rw [h2]
    refine List.Nodup.append hn (List.nodup_singleton _) ?_
    intro a ha hb
    rw [List.mem_singleton] at hb
    exact hf.1 (hb ▸ ha)
  | unregister c =>
    obtain ⟨pre, d, post, hl, h1, _⟩ := ids_onDisconnect s s1 c h
    rw [hl] at hn
    rw [h1]
    exact (List.nodup_cons.mp (List.nodup_middle.mp hn)).2
  | broadcast m ig =>
    obtain ⟨h2, _, _⟩ := Broadcast_of_ok marshal s s1 m ig h
    rw [h2]
    exact hn

/-- On a trace of fresh registrations no peer is listed twice. -/
theorem run_preserves_nodup_clients {M : Type}
    (marshalMap : List (String × String) → Payload) (marshal : M → Payload) :
    ∀ (ops : List (Op M)) (s s1 : State), s.hub.clients.Nodup →
      freshTrace marshalMap marshal s ops = true →
      run marshalMap marshal s ops = .ok s1 → s1.hub.clients.Nodup := by
  intro ops
  induction ops with
  | nil =>
    intro s s1 hn _ h
    simp only [run, Result.ok.injEq] at h
    exact h ▸ hn
  | cons op ops ih =>
    intro s s1 hn hf h
    obtain ⟨s2, hstep, hrun⟩ := run_cons_of_ok marshalMap marshal op ops s s1 h
    simp only [freshTrace, hstep, Bool.and_eq_true] at hf
    refine ih s2 s1 ?_ hf.2 hrun
    refine step_preserves_nodup_clients marshalMap marshal s s2 op hn ?_ hstep
    intro c hc
    subst hc
    exact hf.1

/-- The second unregister of a peer, with no other member of its identifier,
panics. -/
theorem unregister_twice_panics :
    run exampleMarshalMap (fun m : String => m) exampleInit
      [.register 1, .unregister 1, .unregister 1] = .panic :=
  rfl

/-- C1. For every membership list and every payload, when every member other
than `ignore` takes from its outbound channel, `Hub.Broadcast(message, ignore)`
returns, leaves the membership list as it was, and has sent the encoded
payload to every peer other than `ignore` once per entry the peer has in the
list: exactly once to a member listed once, and nothing to `ignore` or to a
peer that is not a member.  With `ignore = nil` and no peer listed twice every
member has received it exactly once. -/
theorem Broadcast_enqueues_once {M : Type} (marshal : M → Payload) (s : State)
    (message : M) (ignore : Option Ptr)
    (hready : ∀ c ∈ s.hub.clients, some c ≠ ignore → s.stalled c = false) :
    ∃ s1, Broadcast marshal s message ignore = .ok s1 ∧ s1.hub = s.hub ∧
      (∀ p, some p ≠ ignore →
        s1.queue p
          = s.queue p ++ List.replicate (s.hub.clients.count p) (marshal message)) ∧
      (∀ p ∈ s.hub.clients, some p ≠ ignore → s.hub.clients.count p = 1 →
        s1.queue p = s.queue p ++ [marshal message]) ∧
      (∀ p, some p = ignore ∨ p ∉ s.hub.clients → s1.queue p = s.queue p) ∧
      (ignore = none → s.hub.clients.Nodup → ∀ p ∈ s.hub.clients,
        s1.queue p = s.queue p ++ [marshal message]) := by
  obtain ⟨s1, hok⟩ := broadcastLoop_ready (marshal message) ignore s.hub.clients s hready
  obtain ⟨hhub, _, hmem⟩ := Broadcast_of_ok marshal s s1 message ignore hok
  have hentries : ∀ p, some p ≠ ignore →
      s1.queue p
        = s.queue p ++ List.replicate (s.hub.clients.count p) (marshal message) := by
    intro p hne
    simp only [State.queue, hmem p, sends, if_neg hne, Client.pushed]
  have honce : ∀ p ∈ s.hub.clients, some p ≠ ignore → s.hub.clients.count p = 1 →
      s1.queue p = s.queue p ++ [marshal message] := by
    intro p _ hne hcount
    rw [hentries p hne, hcount, List.replicate_one]
  refine ⟨s1, hok, hhub, hentries, honce, ?_, ?_⟩
  · intro p hp
    have hcount : sends ignore s.hub.clients p = 0 := by
      rcases hp with h | h
      · simp [sends, h]
      · simp only [sends]
        split
        · rfl
        · exact List.count_eq_zero_of_not_mem h
    simp only [State.queue, hmem p, hcount, Client.pushed, List.replicate_zero,
      List.append_nil]
  · intro hnil hnodup p hp
    exact honce p hp (by rw [hnil]; exact Option.some_ne_none p)
      (List.count_eq_one_of_mem hnodup hp)

/-- C1, on the hub with members 1 and 2 and `ignore` = 1. -/
theorem Broadcast_enqueues_once_witness :
    ∃ s1, Broadcast (fun m : String => m) exampleTwo "created" (some 1) = .ok s1 ∧
      s1.hub = exampleTwo.hub ∧
      (∀ p, some p ≠ some 1 →
        s1.queue p
          = exampleTwo.queue p ++ List.replicate (exampleTwo.hub.clients.count p) "created") ∧
      (∀ p ∈ exampleTwo.hub.clients, some p ≠ some 1 → exampleTwo.hub.clients.count p = 1 →
        s1.queue p = exampleTwo.queue p ++ ["created"]) ∧
      (∀ p, some p = some 1 ∨ p ∉ exampleTwo.hub.clients →
        s1.queue p = exampleTwo.queue p) ∧
      ((some 1 : Option Ptr) = none → exampleTwo.hub.clients.Nodup →
        ∀ p ∈ exampleTwo.hub.clients, s1.queue p = exampleTwo.queue p ++ ["created"]) :=
  Broadcast_enqueues_once (fun m : String => m) exampleTwo "created" (some 1)
    (by intro c _ _; rfl)

/-- C2. `Hub.onDisconnect` for a peer whose identifier no member has (so for
every peer on the empty hub) panics: the loop leaves `i` at -1 and
`h.clients[i:]` is out of range. -/
theorem onDisconnect_unknown_peer_panics (s : State) (client : Ptr)
    (h : ∀ q ∈ s.hub.clients, (s.mem q).id ≠ (s.mem client).id) :
    onDisconnect s client = .panic :=
  onDisconnect_not_found s client h

/-- C2, on the hub fresh from `NewHub`. -/
theorem onDisconnect_unknown_peer_panics_witness :
    onDisconnect exampleInit 1 = .panic :=
  onDisconnect_unknown_peer_panics exampleInit 1 (by intro q hq; cases hq)

/-- C6. `Hub.onConnect` appends the peer at the end of the membership list,
keeping the previous members in their order, and sets the peer's identifier to
its socket's remote address; the identifiers of the other clients and the
socket stay as they were.  This holds in the state the call returns with, and
in the state it is parked in when the peer does not take the welcome
payload. -/
theorem onConnect_appends_and_sets_id (marshalMap : List (String × String) → Payload)
    (s : State) (client : Ptr) :
    ∃ s1, onConnect marshalMap s client
        = (if s.stalled client then Result.blocked s1 else Result.ok s1) ∧
      s1.hub.clients = s.hub.clients ++ [client] ∧
      (s1.mem client).id = (s.mem client).socket.remoteAddr ∧
      (s1.mem client).socket = (s.mem client).socket ∧
      ∀ p, p ≠ client → (s1.mem p).id = (s.mem p).id := by
  obtain ⟨s2, h1, h2, _, h4⟩ := onConnect_eq marshalMap s client
  by_cases hst : s.stalled client = true
  · refine ⟨_, by rw [h1, if_pos hst, if_pos hst], rfl, ?_, ?_, ?_⟩
    · simp
    · simp
    · intro p hp; simp [hp]
  · refine ⟨s2, by rw [h1, if_neg hst, if_neg hst], h2, ?_, ?_, ?_⟩
    · rw [h4 client, if_pos rfl]; rfl
    · rw [h4 client, if_pos rfl]; rfl
    · intro p hp; rw [h4 p, if_neg hp]

/-- C9, as stated, fails: with members 1 and 2 and the outbound loop of 1
stalled, `Broadcast` does not return; it is parked on the send to 1, member 2
has received nothing, and both are still members. -/
theorem Broadcast_hangs_on_stalled_member :
    (∀ s1, Broadcast (fun m : String => m) exampleStalled "created" none ≠ .ok s1) ∧
    ∃ s1, Broadcast (fun m : String => m) exampleStalled "created" none = .blocked s1 ∧
      s1.hub.clients = [1, 2] ∧ s1.queue 1 = [] ∧ s1.queue 2 = [] := by
  have h : Broadcast (fun m : String => m) exampleStalled "created" none
      = .blocked exampleStalled := rfl
  refine ⟨fun s1 hs => ?_, exampleStalled, h, rfl, rfl, rfl⟩
  rw [h] at hs
  cases hs

/-- C9, amended. When a member other than `ignore` has stopped taking from its
outbound channel, `Hub.Broadcast` does not return: it is parked on the send to
the first such member `q` of the list.  Nobody is unregistered (the list is
unchanged), nothing is sent to `q` or to any peer that is not ahead of `q` in
the list, and the members ahead of `q` have been sent the payload. -/
theorem Broadcast_blocks_at_first_stalled {M : Type} (marshal : M → Payload) (s : State)
    (message : M) (ignore : Option Ptr) (p : Ptr)
    (hp : p ∈ s.hub.clients) (hne : some p ≠ ignore) (hst : s.stalled p = true) :
    ∃ s1 pre q post, Broadcast marshal s message ignore = .blocked s1 ∧
      s1.hub = s.hub ∧ s.hub.clients = pre ++ q :: post ∧
      s.stalled q = true ∧ some q ≠ ignore ∧
      (∀ c ∈ pre, some c ≠ ignore → s.stalled c = false) ∧
      (∀ r, s1.queue r
        = s.queue r ++ List.replicate (sends ignore pre r) (marshal message)) ∧
      (∀ r, r ∉ pre → s1.queue r = s.queue r) ∧
      s1.queue q = s.queue q ∧ s1.queue p = s.queue p := by
  obtain ⟨pre, q, post, hl, ⟨hq1, hq2⟩, hpre⟩ :=
    exists_first_split (fun c => some c ≠ ignore ∧ s.stalled c = true) s.hub.clients
      ⟨p, hp, hne, hst⟩
  have hready : ∀ c ∈ pre, some c ≠ ignore → s.stalled c = false := by
    intro c hc hci
    have := hpre c hc
    simp only [not_and, Bool.not_eq_true] at this
    exact this hci
  obtain ⟨s1, hb, hhub, _, hmem⟩ :=
    broadcastLoop_blocked (marshal message) ignore q post hq1 pre s hq2 hready
  have hqueue : ∀ r, s1.queue r
      = s.queue r ++ List.replicate (sends ignore pre r) (marshal message) := by
    intro r
    simp only [State.queue, hmem r, Client.pushed]
  have hout : ∀ r, r ∉ pre → s1.queue r = s.queue r := by
    intro r hr
    have h0 : sends ignore pre r = 0 := by
      simp only [sends]
      split
      · rfl
      · exact List.count_eq_zero_of_not_mem hr
    rw [hqueue r, h0, List.replicate_zero, List.append_nil]
  have hstalled_out : ∀ r, some r ≠ ignore → s.stalled r = true → r ∉ pre := by
    intro r hri hrs hr
    have := hready r hr hri
    rw [hrs] at this
    cases this
  refine ⟨s1, pre, q, post, ?_, hhub, hl, hq2, hq1, hready, hqueue, hout,
    hout q (hstalled_out q hq1 hq2), hout p (hstalled_out p hne hst)⟩
  unfold Broadcast
  rw [hl]
  exact hb

/-- C9 amended, on the hub with members 2 and 1 where 1 is stalled. -/
theorem Broadcast_blocks_at_first_stalled_witness :
    ∃ s1 pre q post,
      Broadcast (fun m : String => m)
        { hub := { clients := [2, 1] }, mem := exampleMem,
          stalled := fun p => decide (p = 1) } "created" none = .blocked s1 ∧
      s1.hub = { clients := [2, 1] } ∧ [2, 1] = pre ++ q :: post ∧
      decide (q = 1) = true ∧ some q ≠ none ∧
      (∀ c ∈ pre, some c ≠ none → decide (c = 1) = false) ∧
      (∀ r, s1.queue r
        = (exampleMem r).outbound ++ List.replicate (sends none pre r) "created") ∧
      (∀ r, r ∉ pre → s1.queue r = (exampleMem r).outbound) ∧
      s1.queue q = (exampleMem q).outbound ∧ s1.queue 1 = (exampleMem 1).outbound :=
  Broadcast_blocks_at_first_stalled (fun m : String => m)
    { hub := { clients := [2, 1] }, mem := exampleMem,
      stalled := fun p => decide (p = 1) } "created" none 1
    (by decide) (by decide) (by decide)

/-- C3, as stated, fails: clients 1 and 3 have the same remote address; after
register 1, register 3, unregister 1 the unregister has completed and peer 1
is still in the membership list (the entry of 3 was removed). -/
theorem unregister_leaves_peer_when_ids_collide :
    ∃ s1, run exampleMarshalMap (fun m : String => m) exampleInit
        [.register 1, .register 3, .unregister 1] = .ok s1 ∧
      s1.hub.clients = [1] ∧ 1 ∈ s1.hub.clients ∧
      ∃ q ∈ s1.hub.clients, (s1.mem q).id = (s1.mem 1).id :=
  ⟨_, rfl, rfl, by decide, 1, by decide, rfl⟩

/-- C3, amended. For every sequence of register, unregister and broadcast
operations from the empty hub in which every register is for a peer that is
not a member and whose remote address is not the identifier of a member: once
a following unregister of a peer has completed, the peer is not in the
membership list and no entry has its identifier. -/
theorem unregister_removes_peer_of_fresh_trace {M : Type}
    (marshalMap : List (String × String) → Payload) (marshal : M → Payload)
    (mem : Ptr → Client) (stalled : Ptr → Bool) (ops : List (Op M)) (c : Ptr) (s1 : State)
    (hfresh : freshTrace marshalMap marshal (initState mem stalled) ops = true)
    (hrun : run marshalMap marshal (initState mem stalled) (ops ++ [.unregister c])
      = .ok s1) :
    c ∉ s1.hub.clients ∧ ∀ q ∈ s1.hub.clients, (s1.mem q).id ≠ (s1.mem c).id := by
  obtain ⟨s, hs, hlast⟩ := run_append_of_ok marshalMap marshal ops _ _ s1 hrun
  have hn : s.ids.Nodup :=
    run_preserves_nodup_ids marshalMap marshal ops (initState mem stalled) s
      (initState_ids_nodup mem stalled) hfresh hs
  obtain ⟨s2, hstep, hnil⟩ := run_cons_of_ok marshalMap marshal _ [] s s1 hlast
  simp only [run, Result.ok.injEq] at hnil
  subst hnil
  exact onDisconnect_removes_id s s2 c hn hstep

/-- C3 amended, on register 1, register 2, then unregister 1. -/
theorem unregister_removes_peer_of_fresh_trace_witness :
    1 ∉ ((run exampleMarshalMap (fun m : String => m) exampleInit
        ([.register 1, .register 2] ++ [.unregister 1])).stateOr exampleInit).hub.clients ∧
    ∀ q ∈ ((run exampleMarshalMap (fun m : String => m) exampleInit
        ([.register 1, .register 2] ++ [.unregister 1])).stateOr exampleInit).hub.clients,
      (((run exampleMarshalMap (fun m : String => m) exampleInit
        ([.register 1, .register 2] ++ [.unregister 1])).stateOr exampleInit).mem q).id
      ≠ (((run exampleMarshalMap (fun m : String => m) exampleInit
        ([.register 1, .register 2] ++ [.unregister 1])).stateOr exampleInit).mem 1).id :=
  unregister_removes_peer_of_fresh_trace exampleMarshalMap (fun m : String => m)
    exampleMem noStall [.register 1, .register 2] 1 _ (by decide) rfl

/-- C4, as stated, fails: clients 1 and 3 have the same remote address, and
after register 1, register 3 the membership list has two entries with that
identifier. -/
theorem register_twice_same_address_duplicates :
    ∃ s1, run exampleMarshalMap (fun m : String => m) exampleInit
        [.register 1, .register 3] = .ok s1 ∧
      s1.ids = ["10.0.0.1:5000", "10.0.0.1:5000"] ∧ ¬ s1.ids.Nodup :=
  ⟨_, rfl, rfl, by decide⟩

/-- C4, amended. For every sequence of register, unregister and broadcast
operations from the empty hub made by `NewHub` in which every register is for
a peer that is not a member and whose remote address is not the identifier of
a member, the membership list has no two entries with the same identifier. -/
theorem no_duplicate_ids_of_fresh_trace {M : Type}
    (marshalMap : List (String × String) → Payload) (marshal : M → Payload)
    (mem : Ptr → Client) (stalled : Ptr → Bool) (ops : List (Op M)) (s1 : State)
    (hfresh : freshTrace marshalMap marshal (initState mem stalled) ops = true)
    (hrun : run marshalMap marshal (initState mem stalled) ops = .ok s1) :
    s1.ids.Nodup :=
  run_preserves_nodup_ids marshalMap marshal ops (initState mem stalled) s1
    (initState_ids_nodup mem stalled) hfresh hrun

/-- C4 amended, on register 1, register 2, unregister 1, register 3 (3 comes
from the address 1 had). -/
theorem no_duplicate_ids_of_fresh_trace_witness :
    ((run exampleMarshalMap (fun m : String => m) exampleInit
      [.register 1, .register 2, .unregister 1, .register 3]).stateOr exampleInit).ids.Nodup :=
  no_duplicate_ids_of_fresh_trace exampleMarshalMap (fun m : String => m)
    exampleMem noStall [.register 1, .register 2, .unregister 1, .register 3] _
    (by decide) rfl

/-- C5, as stated, fails for two distinct peers with the same remote address
(clients 1 and 3): unregister 1 removes the entry of 3, so the second
broadcast goes to 1 and not to 3. -/
theorem scenario_fails_when_addresses_collide :
    ∃ s5, run exampleMarshalMap (fun m : String => m) exampleInit
        [.register 1, .register 3, .broadcast "created-1" none, .unregister 1,
          .broadcast "created-2" none] = .ok s5 ∧
      s5.hub.clients = [1] ∧
      s5.queue 3 = [exampleMarshalMap welcomeMessage, "created-1"] ∧
      s5.queue 1 = [exampleMarshalMap welcomeMessage, "created-1", "created-2"] :=
  ⟨_, rfl, rfl, by decide, by decide⟩

/-- C5, amended. For any two distinct peers A and B with different remote
addresses whose outbound loops take from their channels, and any two
payloads: from the empty hub, after register A, register B,
Broadcast(p1, nil) both channels have received the welcome payload and then p1
exactly once; after then unregister A and Broadcast(p2, nil) only B is a
member, B has received p2 exactly once more and A nothing further. -/
theorem scenario_two_peers {M : Type}
    (marshalMap : List (String × String) → Payload) (marshal : M → Payload)
    (mem : Ptr → Client) (stalled : Ptr → Bool) (A B : Ptr) (p1 p2 : M)
    (hAB : A ≠ B)
    (haddr : (mem A).socket.remoteAddr ≠ (mem B).socket.remoteAddr)
    (hA : stalled A = false) (hB : stalled B = false) :
    ∃ s3 s5,
      run marshalMap marshal (initState mem stalled)
        [.register A, .register B, .broadcast p1 none] = .ok s3 ∧
      s3.queue A = (mem A).outbound ++ [marshalMap welcomeMessage, marshal p1] ∧
      s3.queue B = (mem B).outbound ++ [marshalMap welcomeMessage, marshal p1] ∧
      run marshalMap marshal s3 [.unregister A, .broadcast p2 none] = .ok s5 ∧
      s5.hub.clients = [B] ∧
      s5.queue B = s3.queue B ++ [marshal p2] ∧
      s5.queue A = s3.queue A := by
  have hBA : B ≠ A := fun e => hAB e.symm
  -- register A
  obtain ⟨s1, h1⟩ := onConnect_ready marshalMap (initState mem stalled) A hA
  obtain ⟨_, c1, st1, m1⟩ := onConnect_of_ok marshalMap _ s1 A h1
  -- register B
  obtain ⟨s2, h2⟩ := onConnect_ready marshalMap s1 B (by rw [st1]; exact hB)
  obtain ⟨_, c2, st2, m2⟩ := onConnect_of_ok marshalMap _ s2 B h2
  have hc2 : s2.hub.clients = [A, B] := by rw [c2, c1]; rfl
  have hst2 : s2.stalled = stalled := by rw [st2, st1]; rfl
  -- Broadcast(p1, nil)
  obtain ⟨s3, h3⟩ := broadcastLoop_ready (marshal p1) none s2.hub.clients s2
    (by intro c hc _
        rw [hc2] at hc
        rw [hst2]
        rcases List.mem_cons.mp hc with h | h
        · rw [h]; exact hA
        · rw [List.mem_singleton.mp h]; exact hB)
  obtain ⟨hub3, st3, m3⟩ := Broadcast_of_ok marshal s2 s3 p1 none h3
  have hsA : sends none s2.hub.clients A = 1 := by
    rw [hc2]; simp [sends, List.count_cons, hBA]
  have hsB : sends none s2.hub.clients B = 1 := by
    rw [hc2]; simp [sends, List.count_cons, hAB]
  have hmA : s3.mem A = ((mem A).welcomed (marshalMap welcomeMessage)).pushed 1 (marshal p1) := by
    rw [m3 A, hsA, m2 A, if_neg hAB, m1 A, if_pos rfl]; rfl
  have hmB : s3.mem B = ((mem B).welcomed (marshalMap welcomeMessage)).pushed 1 (marshal p1) := by
    rw [m3 B, hsB, m2 B, if_pos rfl, m1 B, if_neg hBA]; rfl
  have hc3 : s3.hub.clients = [] ++ A :: [B] := by rw [hub3, hc2]; rfl
  -- unregister A
  have h4 := onDisconnect_found s3 A A [] [B] hc3 rfl
    (by intro d hd
        rw [List.mem_singleton.mp hd, hmA, hmB]
        exact fun e => haddr e.symm)
  -- Broadcast(p2, nil)
  obtain ⟨s5, h5⟩ := broadcastLoop_ready (marshal p2) none [B]
    { closeSocket s3 A with hub := { clients := [] ++ [B] } }
    (by intro c hc _
        show s3.stalled c = false
        rw [List.mem_singleton.mp hc, st3, hst2]; exact hB)
  obtain ⟨hub5, _, m5⟩ := broadcastLoop_of_ok (marshal p2) none [B] _ s5 h5
  refine ⟨s3, s5, ?_, ?_, ?_, ?_, ?_, ?_, ?_⟩
  · have h3b : Broadcast marshal s2 p1 none = .ok s3 := h3
    simp only [run, step, h1, h2, h3b]
  · show (s3.mem A).outbound = _
    rw [hmA]
    simp [Client.pushed, Client.welcomed]
  · show (s3.mem B).outbound = _
    rw [hmB]
    simp [Client.pushed, Client.welcomed]
  · have h5b : Broadcast marshal
        { closeSocket s3 A with hub := { clients := [] ++ [B] } } p2 none = .ok s5 := h5
    simp only [run, step, h4, h5b]
  · rw [hub5]; rfl
  · show (s5.mem B).outbound = (s3.mem B).outbound ++ _
    rw [m5 B]
    have : sends none [B] B = 1 := by simp [sends]
    rw [this]
    show ((closeSocket s3 A).mem B).outbound ++ _ = _
    rw [closeSocket_outbound]
    rfl
  · show (s5.mem A).outbound = (s3.mem A).outbound
    rw [m5 A]
    have : sends none [B] A = 0 := by simp [sends, List.count_cons, hBA]
    rw [this, Client.pushed_zero]
    exact closeSocket_outbound s3 A A

/-- C5 amended, for the clients 1 and 2. -/
theorem scenario_two_peers_witness :
    ∃ s3 s5,
      run exampleMarshalMap (fun m : String => m) (initState exampleMem noStall)
        [.register 1, .register 2, .broadcast "created-1" none] = .ok s3 ∧
      s3.queue 1 = (exampleMem 1).outbound ++ [exampleMarshalMap welcomeMessage, "created-1"] ∧
      s3.queue 2 = (exampleMem 2).outbound ++ [exampleMarshalMap welcomeMessage, "created-1"] ∧
      run exampleMarshalMap (fun m : String => m) s3
        [.unregister 1, .broadcast "created-2" none] = .ok s5 ∧
      s5.hub.clients = [2] ∧
      s5.queue 2 = s3.queue 2 ++ ["created-2"] ∧
      s5.queue 1 = s3.queue 1 :=
  scenario_two_peers exampleMarshalMap (fun m : String => m) exampleMem noStall 1 2
    "created-1" "created-2" (by decide) (by decide) rfl rfl

/-- Serial traces. In every sequence of register, unregister and broadcast
operations, none overlapping another, that runs to its end on a hub that does not list the peer `c` and registers
`c` once, `c` arriving with an empty outbound channel: nothing is sent to `c`
before its registration (no broadcast made before it reaches `c`), the
registration sends it the welcome payload, and what its channel has received
at the end is the welcome payload followed only by payloads of broadcasts made
after the registration, in their order. -/
theorem serial_welcome_first {M : Type}
    (marshalMap : List (String × String) → Payload) (marshal : M → Payload)
    (s0 : State) (pre post : List (Op M)) (c : Ptr) (s3 : State)
    (hout : c ∉ s0.hub.clients)
    (hnew : s0.queue c = [])
    (hpre : ∀ op ∈ pre, op ≠ .register c)
    (hpost : ∀ op ∈ post, op ≠ .register c)
    (hrun : run marshalMap marshal s0 (pre ++ .register c :: post) = .ok s3) :
    ∃ s1 s2 rest,
      run marshalMap marshal s0 pre = .ok s1 ∧
      s1.queue c = [] ∧
      onConnect marshalMap s1 c = .ok s2 ∧
      s2.queue c = [marshalMap welcomeMessage] ∧
      run marshalMap marshal s2 post = .ok s3 ∧
      s3.queue c = marshalMap welcomeMessage :: rest ∧
      rest.Sublist (post.filterMap (broadcastPayload marshal)) := by
  obtain ⟨s1, hs1, htail⟩ := run_append_of_ok marshalMap marshal pre _ s0 s3 hrun
  obtain ⟨s2, hs2, hs3⟩ := run_cons_of_ok marshalMap marshal _ post s1 s3 htail
  obtain ⟨hout1, hq1⟩ := run_keeps_outsider marshalMap marshal c pre s0 s1 hout hpre hs1
  have hq1' : s1.queue c = [] := by rw [hq1]; exact hnew
  obtain ⟨_, c2, _, m2⟩ := onConnect_of_ok marshalMap s1 s2 c hs2
  have hq2 : s2.queue c = [marshalMap welcomeMessage] := by
    show (s2.mem c).outbound = _
    rw [m2 c, if_pos rfl]
    show (s1.mem c).outbound ++ _ = _
    rw [show (s1.mem c).outbound = [] from hq1']
    rfl
  have hcount : s2.hub.clients.count c ≤ 1 := by
    rw [c2, List.count_append, List.count_eq_zero_of_not_mem hout1]
    simp
  obtain ⟨rest, hq3, hsub⟩ := run_member_once marshalMap marshal c post s2 s3 hcount hpost hs3
  exact ⟨s1, s2, rest, hs1, hq1', hs2, hq2, hs3, by rw [hq3, hq2]; rfl, hsub⟩

/-- Serial traces, on: register 1, a broadcast, then register 2, a broadcast,
unregister 2, a broadcast. -/
theorem serial_welcome_first_example :
    ∃ s1 s2 rest,
      run exampleMarshalMap (fun m : String => m) exampleInit
        [.register 1, .broadcast "old" none] = .ok s1 ∧
      s1.queue 2 = [] ∧
      onConnect exampleMarshalMap s1 2 = .ok s2 ∧
      s2.queue 2 = [exampleMarshalMap welcomeMessage] ∧
      run exampleMarshalMap (fun m : String => m) s2
        [.broadcast "new" none, .unregister 2, .broadcast "later" none]
        = .ok ((run exampleMarshalMap (fun m : String => m) exampleInit
            ([.register 1, .broadcast "old" none] ++ .register 2 ::
              [.broadcast "new" none, .unregister 2, .broadcast "later" none])).stateOr
            exampleInit) ∧
      ((run exampleMarshalMap (fun m : String => m) exampleInit
            ([.register 1, .broadcast "old" none] ++ .register 2 ::
              [.broadcast "new" none, .unregister 2, .broadcast "later" none])).stateOr
            exampleInit).queue 2 = exampleMarshalMap welcomeMessage :: rest ∧
      rest.Sublist (([.broadcast "new" none, .unregister 2, .broadcast "later" none] :
        List (Op String)).filterMap (broadcastPayload (fun m : String => m))) :=
  serial_welcome_first exampleMarshalMap (fun m : String => m)
    exampleInit [.register 1, .broadcast "old" none]
    [.broadcast "new" none, .unregister 2, .broadcast "later" none] 2 _
    (by decide) rfl (by decide) (by decide) rfl

end Pusher

namespace Events

theorem onCreatedFeedCallbacks_length (gob : Decoder) :
    ∀ (stream : List Data) (msg : CreatedFeedMessage) (calls : List CreatedFeedMessage),
      (onCreatedFeedCallbacks gob stream msg calls).2.length = calls.length + stream.length := by
  intro stream
  induction stream with
  | nil => intro msg calls; rfl
  | cons m ms ih =>
    intro msg calls
    simp only [onCreatedFeedCallbacks, ih, List.length_append, List.length_cons,
      List.length_nil]
    omega

theorem subscribeLoop_eq (gob : Decoder) :
    ∀ (stream : List Data) (sent : List CreatedFeedMessage),
      subscribeLoop gob stream sent
        = sent ++ stream.map (fun d => (decodeMessage gob d CreatedFeedMessage.zero).1) := by
  intro stream
  induction stream with
  | nil => intro sent; simp [subscribeLoop]
  | cons m ms ih =>
    intro sent
    simp only [subscribeLoop, ih, List.map_cons, List.append_assoc, List.singleton_append]

/-- C10, as stated, fails: a message whose payload fails to decode is not
dropped.  On the stream of one undecodable message the callback of
`OnCreatedFeed` calls `f` once and the loop of `SubscribeCreatedFeed` puts one
value on the channel, both with the zero message, where the specification
delivers nothing. -/
theorem undecodable_message_is_still_delivered :
    (decodeMessage exampleGob [] CreatedFeedMessage.zero).2 = false ∧
    specDeliveries exampleGob [[]] = [] ∧
    OnCreatedFeed exampleGob [[]] = [CreatedFeedMessage.zero] ∧
    SubscribeCreatedFeed exampleGob [[]] = [CreatedFeedMessage.zero] ∧
    OnCreatedFeed exampleGob [[]] ≠ specDeliveries exampleGob [[]] ∧
    SubscribeCreatedFeed exampleGob [[]] ≠ specDeliveries exampleGob [[]] := by
  decide

/-- C10, amended. A message whose payload fails to decode does not end the
subscription and is not dropped: for every stream the callback of
`OnCreatedFeed` calls `f` exactly once per message and the loop of
`SubscribeCreatedFeed` puts exactly one value per message on the channel, in
stream order.  In `SubscribeCreatedFeed` the value delivered for a message is
what decoding its payload into a fresh zero message leaves, so every message
that decodes correctly, also after undecodable ones, is delivered with exactly
its own decoded field values. -/
theorem subscription_delivers_every_message (gob : Decoder) (stream : List Data) :
    (OnCreatedFeed gob stream).length = stream.length ∧
    (SubscribeCreatedFeed gob stream).length = stream.length ∧
    SubscribeCreatedFeed gob stream
      = stream.map (fun d => (decodeMessage gob d CreatedFeedMessage.zero).1) ∧
    ∀ (k : Nat) (d : Data) (v : CreatedFeedMessage), stream[k]? = some d →
      decodeMessage gob d CreatedFeedMessage.zero = (v, true) →
      (SubscribeCreatedFeed gob stream)[k]? = some v := by
  have hsub : SubscribeCreatedFeed gob stream
      = stream.map (fun d => (decodeMessage gob d CreatedFeedMessage.zero).1) := by
    unfold SubscribeCreatedFeed
    rw [subscribeLoop_eq, List.nil_append]
  refine ⟨?_, ?_, hsub, ?_⟩
  · unfold OnCreatedFeed
    rw [onCreatedFeedCallbacks_length]
    simp
  · rw [hsub, List.length_map]
  · intro k d v hk hv
    rw [hsub, List.getElem?_map, hk, Option.map_some', hv]

end Events

namespace Pusher

theorem eraseIdx_split {α : Type} (pre : List α) (d : α) (post : List α) :
    (pre ++ d :: post).eraseIdx pre.length = pre ++ post := by
  rw [List.eraseIdx_append_of_length_le (Nat.le_refl _), Nat.sub_self]
  rfl

/-- The copy-shift removal at a valid index is the erasure of that index. -/
theorem removeAt_eq_eraseIdx {α : Type} (cs : List α) (i : Nat) (hi : i < cs.length) :
    removeAt cs (i : Int) = some (cs.eraseIdx i) := by
  have hsplit : cs = cs.take i ++ cs[i] :: cs.drop (i + 1) := by
    rw [← List.drop_eq_getElem_cons hi, List.take_append_drop]
  have hlen : (cs.take i).length = i := by
    rw [List.length_take]; omega
  have h1 := removeAt_split (cs.take i) cs[i] (cs.drop (i + 1))
  have h2 := eraseIdx_split (cs.take i) cs[i] (cs.drop (i + 1))
  rw [hlen, ← hsplit] at h1 h2
  rw [h1, h2]

/-- C15. For every membership list with at least one entry whose identifier
is the given peer's, `Hub.onDisconnect` returns and has removed exactly one
entry, the last one (highest index `i`) with that identifier: the loop ends
with that index, the copy-shift removal equals erasing the element at `i`, the
resulting list is one shorter and keeps all other entries in their order. -/
theorem onDisconnect_removes_last_match (s : State) (client : Ptr)
    (h : ∃ q ∈ s.hub.clients, (s.mem q).id = (s.mem client).id) :
    ∃ (i : Nat) (s1 : State), i < s.hub.clients.length ∧
      (∃ q, s.hub.clients[i]? = some q ∧ (s.mem q).id = (s.mem client).id) ∧
      (∀ j q, i < j → s.hub.clients[j]? = some q → (s.mem q).id ≠ (s.mem client).id) ∧
      rangeLoop s.mem (s.mem client).id s.hub.clients 0 (-1) = (i : Int) ∧
      removeAt s.hub.clients (i : Int) = some (s.hub.clients.eraseIdx i) ∧
      onDisconnect s client = .ok s1 ∧
      s1.hub.clients = s.hub.clients.eraseIdx i ∧
      s1.hub.clients.length + 1 = s.hub.clients.length ∧
      s1.hub.clients.Sublist s.hub.clients := by
  obtain ⟨pre, d, post, hl, hd, hpost⟩ :=
    exists_last_split (fun d => (s.mem d).id = (s.mem client).id) s.hub.clients h
  have hi : pre.length < s.hub.clients.length := by
    rw [hl, List.length_append, List.length_cons]; omega
  have herase : s.hub.clients.eraseIdx pre.length = pre ++ post := by
    rw [hl]; exact eraseIdx_split pre d post
  refine ⟨pre.length, { closeSocket s client with hub := { clients := pre ++ post } },
    hi, ⟨d, ?_, hd⟩, ?_, ?_, removeAt_eq_eraseIdx _ _ hi,
    onDisconnect_found s client d pre post hl hd hpost, herase.symm, ?_, ?_⟩
  · rw [hl, List.getElem?_append_right (Nat.le_refl _), Nat.sub_self,
      List.getElem?_cons_zero]
  · intro j q hj hq
    rw [hl, List.getElem?_append_right (Nat.le_of_lt hj)] at hq
    obtain ⟨k, hk⟩ : ∃ k, j - pre.length = k + 1 := ⟨j - pre.length - 1, by omega⟩
    rw [hk, List.getElem?_cons_succ] at hq
    exact hpost q (List.mem_iff_getElem?.mpr ⟨k, hq⟩)
  · have := rangeLoop_found s.mem (s.mem client).id d post hd hpost pre 0 (-1)
    rw [hl, this, Nat.zero_add]
  · show (pre ++ post).length + 1 = _
    rw [hl]
    simp only [List.length_append, List.length_cons]
    omega
  · show (pre ++ post).Sublist _
    rw [hl]
    exact List.Sublist.append (List.Sublist.refl _) (List.sublist_cons_self _ _)

/-- C15, on the list of clients 1, 3, 2 as `NewClient` made them (three
different identifiers) with peer 1 given: the entry at index 0 goes. -/
theorem onDisconnect_removes_last_match_witness :
    ∃ (i : Nat) (s1 : State), i < [1, 3, 2].length ∧
      (∃ q, ([1, 3, 2] : List Ptr)[i]? = some q ∧ (exampleMem q).id = (exampleMem 1).id) ∧
      (∀ j q, i < j → ([1, 3, 2] : List Ptr)[j]? = some q →
        (exampleMem q).id ≠ (exampleMem 1).id) ∧
      rangeLoop exampleMem (exampleMem 1).id [1, 3, 2] 0 (-1) = (i : Int) ∧
      removeAt ([1, 3, 2] : List Ptr) (i : Int) = some (([1, 3, 2] : List Ptr).eraseIdx i) ∧
      onDisconnect { hub := { clients := [1, 3, 2] }, mem := exampleMem, stalled := noStall } 1
        = .ok s1 ∧
      s1.hub.clients = ([1, 3, 2] : List Ptr).eraseIdx i ∧
      s1.hub.clients.length + 1 = [1, 3, 2].length ∧
      s1.hub.clients.Sublist [1, 3, 2] :=
  onDisconnect_removes_last_match
    { hub := { clients := [1, 3, 2] }, mem := exampleMem, stalled := noStall } 1
    ⟨1, by decide, rfl⟩


theorem readLoop_frames (c : Ptr) (later : List ReadResult) :
    ∀ (ms : List Payload) (s : State), s.stalled c = false →
      ∃ s1, readLoop c (ms.map ReadResult.frame ++ ReadResult.error :: later) s
          = .ok (s1, later) ∧
        s1.hub = s.hub ∧ s1.stalled = s.stalled ∧
        ∀ p, s1.mem p =
          if p = c then { s.mem p with outbound := (s.mem p).outbound ++ ms } else s.mem p := by
  intro ms
  induction ms with
  | nil =>
    intro s _
    refine ⟨s, rfl, rfl, rfl, fun p => ?_⟩
    split <;> simp
  | cons m ms ih =>
    intro s hst
    obtain ⟨s1, h1, h2, h3, h4⟩ :=
      ih (s.update c (fun cl => { cl with outbound := cl.outbound ++ [m] })) hst
    refine ⟨s1, ?_, h2, h3, fun p => ?_⟩
    · simp only [List.map_cons, List.cons_append, readLoop, send, hst, Bool.false_eq_true,
        if_false]
      exact h1
    · rw [h4 p, State.update_mem]
      by_cases hp : p = c
      · simp [hp]
      · simp [hp]

/-- C12, amended. For every sequence of read results made of k frames followed by a
read error (whatever the socket would give after it), with the peer's outbound
loop taking from the channel when there is a frame to echo: `Client.Read`
returns, has sent exactly the k
frame contents, in the order read, on the peer's own outbound channel and
nothing on any other, has left the membership list alone, has sent the peer on
`hub.unregister` exactly once, and has read nothing after the first error. -/
theorem Read_echoes_then_unregisters_once (s : State) (c : Ptr) (ms : List Payload)
    (later : List ReadResult) (hst : ms ≠ [] → s.stalled c = false) :
    ∃ log, Read s c (ms.map ReadResult.frame ++ ReadResult.error :: later) = .ok log ∧
      log.state.queue c = s.queue c ++ ms ∧
      (∀ p, p ≠ c → log.state.queue p = s.queue p) ∧
      log.state.hub = s.hub ∧
      log.unregister = [c] ∧
      log.rest = later := by
  cases ms with
  | nil =>
    exact ⟨{ state := s, unregister := [c], rest := later }, rfl,
      (List.append_nil _).symm, fun _ _ => rfl, rfl, rfl, rfl⟩
  | cons m ms =>
    obtain ⟨s1, h1, h2, _, h4⟩ :=
      readLoop_frames c later (m :: ms) s (hst (List.cons_ne_nil _ _))
    refine ⟨{ state := s1, unregister := [c], rest := later }, ?_, ?_, ?_, h2, rfl, rfl⟩
    · simp only [Read, h1]
    · show (s1.mem c).outbound = _
      rw [h4 c, if_pos rfl]
      rfl
    · intro p hp
      show (s1.mem p).outbound = _
      rw [h4 p, if_neg hp]
      rfl

/-- C12 amended, for client 1 of the examples reading two frames, an error, and a
frame the socket would still have. -/
theorem Read_echoes_then_unregisters_once_witness :
    ∃ log, Read exampleInit 1
        ((["ping", "pong"] : List Payload).map ReadResult.frame ++
          ReadResult.error :: [ReadResult.frame "late"]) = .ok log ∧
      log.state.queue 1 = exampleInit.queue 1 ++ ["ping", "pong"] ∧
      (∀ p, p ≠ 1 → log.state.queue p = exampleInit.queue p) ∧
      log.state.hub = exampleInit.hub ∧
      log.unregister = [1] ∧
      log.rest = [ReadResult.frame "late"] :=
  Read_echoes_then_unregisters_once exampleInit 1 ["ping", "pong"] [ReadResult.frame "late"]
    (fun _ => rfl)

theorem writeLoop_good (tail : List WriteEvent) :
    ∀ (good : List WriteEvent) (calls : List (Frame × Bool)),
      (∀ e ∈ good, e.written = true) →
      writeLoop (good ++ tail) calls
        = writeLoop tail (calls ++ good.map (fun e => (e.frame, true))) := by
  intro good
  induction good with
  | nil => intro calls _; simp
  | cons e es ih =>
    intro calls hgood
    have he : e.written = true := hgood e (List.mem_cons_self _ _)
    have hes : ∀ x ∈ es, x.written = true := fun x hx => hgood x (List.mem_cons_of_mem _ hx)
    cases e with
    | message data w =>
      simp only [WriteEvent.written] at he
      subst he
      show writeLoop (es ++ tail) (calls ++ [(Frame.text data, true)]) = _
      rw [ih _ hes, List.append_assoc]
      rfl
    | tick w =>
      simp only [WriteEvent.written] at he
      subst he
      show writeLoop (es ++ tail) (calls ++ [(Frame.ping "keepalive", true)]) = _
      rw [ih _ hes, List.append_assoc]
      rfl

theorem writeLoop_bad (bad : WriteEvent) (rest : List WriteEvent)
    (calls : List (Frame × Bool)) (hbad : bad.written = false) :
    writeLoop (bad :: rest) calls = .ok (calls ++ [(bad.frame, false)], rest) := by
  cases bad with
  | message data w =>
    simp only [WriteEvent.written] at hbad
    subst hbad
    simp [writeLoop, WriteEvent.frame]
  | tick w =>
    simp only [WriteEvent.written] at hbad
    subst hbad
    simp [writeLoop, WriteEvent.frame]

theorem dataFrames_append (a b : List (Frame × Bool)) :
    dataFrames (a ++ b) = dataFrames a ++ dataFrames b := by
  simp [dataFrames, List.filterMap_append]

theorem dataFrames_good (good : List WriteEvent) :
    dataFrames (good.map (fun e => (e.frame, true))) = good.filterMap WriteEvent.payload := by
  induction good with
  | nil => rfl
  | cons e es ih =>
    have hcons : dataFrames ((e :: es).map (fun e => (e.frame, true)))
        = dataFrames [(e.frame, true)] ++ dataFrames (es.map (fun e => (e.frame, true))) := by
      rw [← dataFrames_append]; rfl
    rw [hcons, ih]
    cases e <;> rfl

/-- C13. For every run of events of the outbound loop made of events whose
write succeeds, then one whose write fails (of a data frame or of a keepalive
probe), then any further events: `Client.Write` hands the payloads it took
from the outbound channel to the transport as data frames in the order they
were taken, and the failure ends it.  It returns after the failing call,
which is made once, followed only by the close frame of the deferred function;
the data frames written are exactly the payloads taken before the failure, the
later events are not consumed, and nothing is sent on `hub.unregister`.
Without a failing write the loop goes on waiting, having written the payloads
in order. -/
theorem Write_fifo_and_failure_terminal (closeWritten : Bool) (good : List WriteEvent)
    (bad : WriteEvent) (rest : List WriteEvent)
    (hgood : ∀ e ∈ good, e.written = true) (hbad : bad.written = false) :
    (∃ log, Write closeWritten (good ++ bad :: rest) = .ok log ∧
      log.calls = good.map (fun e => (e.frame, true)) ++
        [(bad.frame, false), (Frame.close, closeWritten)] ∧
      dataFrames log.calls = good.filterMap WriteEvent.payload ∧
      log.rest = rest ∧
      log.unregister = []) ∧
    (∃ log, Write closeWritten good = .blocked log ∧
      log.calls = good.map (fun e => (e.frame, true)) ∧
      dataFrames log.calls = good.filterMap WriteEvent.payload ∧
      log.unregister = []) := by
  have hfail : dataFrames [(bad.frame, false), (Frame.close, closeWritten)] = [] := by
    cases bad <;> rfl
  constructor
  · refine ⟨{ calls := good.map (fun e => (e.frame, true)) ++
        [(bad.frame, false), (Frame.close, closeWritten)], unregister := [], rest := rest },
      ?_, rfl, ?_, rfl, rfl⟩
    · simp only [Write, writeLoop_good (bad :: rest) good [] hgood,
        writeLoop_bad bad rest _ hbad, List.nil_append, List.append_assoc,
        List.singleton_append]
    · show dataFrames (_ ++ _) = _
      rw [dataFrames_append, hfail, List.append_nil, dataFrames_good]
  · refine ⟨{ calls := good.map (fun e => (e.frame, true)), unregister := [], rest := [] },
      ?_, rfl, dataFrames_good good, rfl⟩
    have h := writeLoop_good [] good [] hgood
    rw [List.append_nil, List.nil_append] at h
    simp only [Write, h, writeLoop]

/-- C13, on: two payloads and a probe written, then a payload whose write
fails, then a payload still in the channel. -/
theorem Write_fifo_and_failure_terminal_witness :
    (∃ log, Write true
        ([.message "a" true, .tick true, .message "b" true] ++
          WriteEvent.message "c" false :: [.message "d" true]) = .ok log ∧
      log.calls = ([.message "a" true, .tick true, .message "b" true] :
          List WriteEvent).map (fun e => (e.frame, true)) ++
        [((WriteEvent.message "c" false).frame, false), (Frame.close, true)] ∧
      dataFrames log.calls = ([.message "a" true, .tick true, .message "b" true] :
          List WriteEvent).filterMap WriteEvent.payload ∧
      log.rest = [.message "d" true] ∧
      log.unregister = []) ∧
    (∃ log, Write true [.message "a" true, .tick true, .message "b" true] = .blocked log ∧
      log.calls = ([.message "a" true, .tick true, .message "b" true] :
          List WriteEvent).map (fun e => (e.frame, true)) ∧
      dataFrames log.calls = ([.message "a" true, .tick true, .message "b" true] :
          List WriteEvent).filterMap WriteEvent.payload ∧
      log.unregister = []) :=
  Write_fifo_and_failure_terminal true [.message "a" true, .tick true, .message "b" true]
    (.message "c" false) [.message "d" true] (by decide) rfl


/-- C11. For every notification with fields (id, title, description, creation
timestamp) on which the JSON decoder inverts the JSON encoder, and every hub
whose members take from their channels: the callback of the event bridge
returns, every peer's channel has received, once per entry the peer has in the
membership list, the encoding of `newCreatedFeedMessage(m.ID, m.Title,
m.Description, m.CreatedAt)`, and that payload decodes to a message with the
same four field values.  Likewise `PublishCreatedFeed` publishes the encoding
of a `CreatedFeedMessage` whose four fields are those of the feed. -/
theorem created_feed_round_trip (marshal : CreatedFeedMessage → Payload)
    (unmarshal : Payload → Option CreatedFeedMessage) (gob : Events.Encoder)
    (subject : String) (s : State) (m : Events.CreatedFeedMessage) (feed : Models.Feed)
    (hready : ∀ c ∈ s.hub.clients, s.stalled c = false)
    (hjson : unmarshal (marshal (newCreatedFeedMessage m.ID m.Title m.Description m.CreatedAt))
      = some (newCreatedFeedMessage m.ID m.Title m.Description m.CreatedAt)) :
    (∃ s1 payload w, createdFeedCallback marshal s m = .ok s1 ∧
      (∀ p, s1.queue p = s.queue p ++ List.replicate (s.hub.clients.count p) payload) ∧
      unmarshal payload = some w ∧
      w.ID = m.ID ∧ w.Title = m.Title ∧ w.Description = m.Description ∧
      w.CreatedAt = m.CreatedAt) ∧
    (∃ msg : Events.CreatedFeedMessage,
      msg.ID = feed.ID ∧ msg.Title = feed.Title ∧ msg.Description = feed.Description ∧
      msg.CreatedAt = feed.CreatedAt ∧
      Events.PublishCreatedFeed gob subject feed
        = (Events.encodeMessage gob msg).map (fun data => (subject, data))) := by
  constructor
  · obtain ⟨s1, hok⟩ := broadcastLoop_ready
      (marshal (newCreatedFeedMessage m.ID m.Title m.Description m.CreatedAt)) none
      s.hub.clients s (fun c hc _ => hready c hc)
    obtain ⟨_, _, hmem⟩ := broadcastLoop_of_ok _ none s.hub.clients s s1 hok
    refine ⟨s1, _, _, hok, ?_, hjson, rfl, rfl, rfl, rfl⟩
    intro p
    show (s1.mem p).outbound = _
    rw [hmem p]
    simp [Client.pushed, sends, State.queue]
  · refine ⟨Events.createdFeedMessageOf feed, rfl, rfl, rfl, rfl, ?_⟩
    simp only [Events.PublishCreatedFeed]
    split <;> rename_i h <;> rw [h] <;> rfl

/-- C11, for the example notification on the hub with members 1 and 2. -/
theorem created_feed_round_trip_witness :
    (∃ s1 payload w, createdFeedCallback exampleMarshal exampleTwo exampleNotification = .ok s1 ∧
      (∀ p, s1.queue p
        = exampleTwo.queue p ++ List.replicate (exampleTwo.hub.clients.count p) payload) ∧
      exampleUnmarshal payload = some w ∧
      w.ID = exampleNotification.ID ∧ w.Title = exampleNotification.Title ∧
      w.Description = exampleNotification.Description ∧
      w.CreatedAt = exampleNotification.CreatedAt) ∧
    (∃ msg : Events.CreatedFeedMessage,
      msg.ID = "7" ∧ msg.Title = "t" ∧ msg.Description = "d" ∧ msg.CreatedAt = 9 ∧
      Events.PublishCreatedFeed (fun msg => some [msg.CreatedAt.toNat]) "CreatedFeed"
          { ID := "7", Title := "t", Description := "d", CreatedAt := 9 }
        = (Events.encodeMessage (fun msg => some [msg.CreatedAt.toNat]) msg).map
            (fun data => ("CreatedFeed", data))) :=
  created_feed_round_trip exampleMarshal exampleUnmarshal
    (fun msg => some [msg.CreatedAt.toNat]) "CreatedFeed" exampleTwo exampleNotification
    { ID := "7", Title := "t", Description := "d", CreatedAt := 9 }
    (by intro c _; rfl) (by decide)

end Pusher

namespace Pusher

/-- The two parts of `onConnect` make up the method. -/
theorem onConnect_eq_append_then_welcome (marshalMap : List (String × String) → Payload)
    (s : State) (client : Ptr) :
    onConnect marshalMap s client
      = onConnectWelcome marshalMap (onConnectAppend s client) client :=
  rfl

/-- C8. `Hub.Broadcast` takes no mutex, so a call of it can run between the
append of `onConnect` and the welcome push.  For every hub that does not list
the peer `c`, with the members and `c` taking from their channels: in that
interleaving the broadcast returns, the welcome push returns, and the channel
of `c` has received the broadcast payload before the welcome payload. -/
theorem broadcast_overtakes_welcome {M : Type}
    (marshalMap : List (String × String) → Payload) (marshal : M → Payload)
    (s : State) (c : Ptr) (message : M)
    (hout : c ∉ s.hub.clients)
    (hready : ∀ p ∈ s.hub.clients, s.stalled p = false) (hc : s.stalled c = false) :
    ∃ s2 s3, Broadcast marshal (onConnectAppend s c) message none = .ok s2 ∧
      onConnectWelcome marshalMap s2 c = .ok s3 ∧
      s3.queue c = s.queue c ++ [marshal message, marshalMap welcomeMessage] ∧
      onConnect marshalMap s c = onConnectWelcome marshalMap (onConnectAppend s c) c := by
  have hclients : (onConnectAppend s c).hub.clients = s.hub.clients ++ [c] := rfl
  have hstalled : (onConnectAppend s c).stalled = s.stalled := rfl
  obtain ⟨s2, h2⟩ := broadcastLoop_ready (marshal message) none
    (onConnectAppend s c).hub.clients (onConnectAppend s c)
    (by intro p hp _
        rw [hstalled]
        rw [hclients, List.mem_append, List.mem_singleton] at hp
        rcases hp with h | h
        · exact hready p h
        · rw [h]; exact hc)
  obtain ⟨_, hst2, hmem⟩ := broadcastLoop_of_ok (marshal message) none _ _ s2 h2
  have hsends : sends none (onConnectAppend s c).hub.clients c = 1 := by
    rw [hclients]
    simp [sends, List.count_append, List.count_eq_zero_of_not_mem hout]
  have hq2 : (s2.mem c).outbound = (s.mem c).outbound ++ [marshal message] := by
    rw [hmem c, hsends]
    simp [Client.pushed, onConnectAppend, State.update]
  have hc2 : s2.stalled c = false := by rw [hst2, hstalled]; exact hc
  refine ⟨s2, s2.update c (fun cl =>
      { cl with outbound := cl.outbound ++ [marshalMap welcomeMessage] }), h2, ?_, ?_, rfl⟩
  · simp only [onConnectWelcome, send, hc2, Bool.false_eq_true, if_false]
  · show ((s2.update c _).mem c).outbound = _
    rw [State.update_mem, if_pos rfl]
    show (s2.mem c).outbound ++ _ = _
    rw [hq2, List.append_assoc]
    rfl

/-- C8, for client 2 joining the hub with member 1 while "early" is
broadcast. -/
theorem broadcast_overtakes_welcome_witness :
    ∃ s2 s3,
      Broadcast (fun m : String => m)
        (onConnectAppend { hub := { clients := [1] }, mem := exampleMem, stalled := noStall } 2)
        "early" none = .ok s2 ∧
      onConnectWelcome exampleMarshalMap s2 2 = .ok s3 ∧
      s3.queue 2 = (exampleMem 2).outbound ++ ["early", exampleMarshalMap welcomeMessage] ∧
      onConnect exampleMarshalMap
          { hub := { clients := [1] }, mem := exampleMem, stalled := noStall } 2
        = onConnectWelcome exampleMarshalMap
            (onConnectAppend { hub := { clients := [1] }, mem := exampleMem, stalled := noStall } 2)
            2 :=
  broadcast_overtakes_welcome exampleMarshalMap (fun m : String => m)
    { hub := { clients := [1] }, mem := exampleMem, stalled := noStall } 2 "early"
    (by decide) (by intro p _; rfl) rfl

/-- C12, as stated, fails: when the peer's outbound loop has stopped taking
(client 1 here), `Client.Read` is parked on the echo of the first frame; it
does not return, does not reach the read error and sends nothing on
`hub.unregister`. -/
theorem Read_parks_on_echo_of_stalled_peer :
    (∀ log, Read exampleStalled 1 [.frame "ping", .error] ≠ .ok log) ∧
    ∃ log, Read exampleStalled 1 [.frame "ping", .error] = .blocked log ∧
      log.unregister = [] ∧ log.rest = [.error] ∧ log.state.queue 1 = [] := by
  have h : Read exampleStalled 1 [.frame "ping", .error]
      = .blocked { state := exampleStalled, unregister := [], rest := [.error] } := rfl
  refine ⟨fun log hlog => ?_, _, h, rfl, rfl, rfl⟩
  rw [h] at hlog
  cases hlog

theorem broadcastLoopLogged_spec (data : Payload) (ignore : Option Ptr) :
    ∀ (l : List Ptr) (s : State) (log : List Access),
      (broadcastLoopLogged data ignore l s log).1 = broadcastLoop data ignore l s ∧
      ∃ tail, (broadcastLoopLogged data ignore l s log).2 = log ++ tail ∧
        tail.count Access.lock = 0 ∧ tail.count Access.unlock = 0 := by
  intro l
  induction l with
  | nil => intro s log; exact ⟨rfl, [], (List.append_nil _).symm, rfl, rfl⟩
  | cons c rest ih =>
    intro s log
    by_cases hc : some c = ignore
    · simp only [broadcastLoopLogged, broadcastLoop, hc, ne_eq, not_true_eq_false, if_false]
      obtain ⟨h1, tail, h2, h3, h4⟩ := ih s (log ++ [.readClients])
      refine ⟨h1, Access.readClients :: tail, ?_, ?_, ?_⟩
      · rw [h2, List.append_assoc]; rfl
      · rw [List.count_cons_of_ne (by simp)]; exact h3
      · rw [List.count_cons_of_ne (by simp)]; exact h4
    · by_cases hst : s.stalled c = true
      · have hl : (broadcastLoopLogged data ignore (c :: rest) s log)
            = (Result.blocked s, log ++ [.readClients, .push c]) := by
          simp [broadcastLoopLogged, hc, send, hst]
        have hb : broadcastLoop data ignore (c :: rest) s = Result.blocked s := by
          simp [broadcastLoop, hc, send, hst]
        rw [hl, hb]
        refine ⟨rfl, [.readClients, .push c], rfl, ?_, ?_⟩
        · rw [List.count_cons_of_ne (by simp), List.count_cons_of_ne (by simp)]; rfl
        · rw [List.count_cons_of_ne (by simp), List.count_cons_of_ne (by simp)]; rfl
      · simp only [broadcastLoopLogged, broadcastLoop, ne_eq, hc, not_false_eq_true, if_true,
          send, hst, Bool.false_eq_true, if_false]
        obtain ⟨h1, tail, h2, h3, h4⟩ :=
          ih (s.update c (fun cl => { cl with outbound := cl.outbound ++ [data] }))
            (log ++ [.readClients, .push c])
        refine ⟨h1, Access.readClients :: Access.push c :: tail, ?_, ?_, ?_⟩
        · rw [h2, List.append_assoc]; rfl
        · rw [List.count_cons_of_ne (by simp), List.count_cons_of_ne (by simp)]; exact h3
        · rw [List.count_cons_of_ne (by simp), List.count_cons_of_ne (by simp)]; exact h4

/-- C14. For every hub, message and `ignore`, the logged `Hub.Broadcast` is
`Hub.Broadcast`, and its log holds no operation on the mutex: it begins with a
read of the membership list made while the mutex is not held, so the reads of
the list in `Broadcast` are not guarded by the lock. -/
theorem Broadcast_reads_without_lock {M : Type} (marshal : M → Payload) (s : State)
    (message : M) (ignore : Option Ptr) :
    (BroadcastLogged marshal s message ignore).1 = Broadcast marshal s message ignore ∧
    (∃ tail, (BroadcastLogged marshal s message ignore).2 = Access.readClients :: tail) ∧
    (BroadcastLogged marshal s message ignore).2.count Access.lock = 0 ∧
    (BroadcastLogged marshal s message ignore).2.count Access.unlock = 0 ∧
    clientsGuarded false (BroadcastLogged marshal s message ignore).2 = false := by
  obtain ⟨h1, tail, h2, h3, h4⟩ :=
    broadcastLoopLogged_spec (marshal message) ignore s.hub.clients s [.readClients]
  have hlog : (BroadcastLogged marshal s message ignore).2 = Access.readClients :: tail := h2
  refine ⟨h1, ⟨tail, hlog⟩, ?_, ?_, ?_⟩
  · rw [hlog, List.count_cons_of_ne (by simp)]; exact h3
  · rw [hlog, List.count_cons_of_ne (by simp)]; exact h4
  · rw [hlog]; rfl

end Pusher
